import Mathlib

/-!
Verification of the client-side content-addressed file store
(`DirectFileManipulator` and its helpers).

JavaScript strings are modelled as `List Char` (`Str`).  Stored CouchDB
documents are modelled as records of optional fields (a JS object may or may
not carry each field).  The remote CouchDB server is modelled as an
association list of documents with natural-number revisions, with the
standard CouchDB semantics for `GET /{id}`, `PUT /{id}`, `POST /_all_docs`
(inclusive `startkey`/`endkey`, rows in request-key order) and
`POST /_bulk_docs` (per-document `ok`/`conflict` results carrying an `id`
field, as in §4.5 of the specification).

Components of the repository that are imported by the store but whose
sources are not part of this package snapshot (`e2ee_v2.ts`, `LRUCache.ts`,
`strbin.ts`, `path.ts`) are modelled from the specification; each such
definition carries a doc comment starting with `Modelled from the spec:`.
-/

/-- JS strings are sequences of characters. -/
abbrev Str := List Char

/-- Embed a Lean string literal as a `Str`. -/
def lit (s : String) : Str := s.data

/-- JS truthiness of a `string | undefined` value: `undefined` and the empty
string are falsy. -/
def truthyS : Option Str → Bool
  | some s => !s.isEmpty
  | none => false

/-- Concatenation of a list of strings (JS `[...].join("")`). -/
def joinS (l : List Str) : Str := l.flatten

/-- Little-endian digits of `n` in base `b`, with explicit fuel (the fuel
`n` itself is always sufficient for `b ≥ 2`). -/
def natDigits (b : Nat) : Nat → Nat → List Nat
  | 0, _ => []
  | _ + 1, 0 => []
  | fuel + 1, n => (n % b) :: natDigits b fuel (n / b)

/-- The character JS uses for digit `d` in `Number`/`BigInt` `toString`
rendering: `0`–`9` then lowercase `a`–`z`. -/
def digitChar36 (d : Nat) : Char :=
  if d < 10 then Char.ofNat (48 + d) else Char.ofNat (87 + d)

/-- Base-`b` rendering of `n`, as JS `BigInt.prototype.toString(b)` renders
nonnegative values. -/
def toBaseStr (b n : Nat) : Str :=
  if n = 0 then ['0'] else ((natDigits b n n).reverse.map digitChar36)

/-- Decimal rendering, JS `${n}` for a nonnegative integer. -/
def natToStr (n : Nat) : Str := toBaseStr 10 n

/-- Base-36 rendering, JS `bigint.toString(36)`. -/
def toBase36 (n : Nat) : Str := toBaseStr 36 n

/-- Boolean string prefix test (arguments: the candidate prefix, then the
string). -/
def startsWith : Str → Str → Bool
  | [], _ => true
  | _ :: _, [] => false
  | c :: p, d :: s => c = d && startsWith p s

/-- Modelled from the spec: symmetric authenticated encryption from
`e2ee_v2.ts` (not in this snapshot).  §4.3: encryption is deterministic here
(salt, iteration modes and the `useV1` envelope are abstracted away, they do
not affect any claim); decryption of a value that was not produced by
encryption under the same passphrase fails with `DecryptError`.  We model the
ciphertext as a tagged envelope that records the passphrase. -/
def encPre (pass : Str) : Str := lit "enc:" ++ pass ++ lit ":"

/-- Modelled from the spec: `encrypt` of `e2ee_v2.ts` (see `encPre`). -/
def encryptStr (plain pass : Str) : Str := encPre pass ++ plain

/-- Modelled from the spec: `decrypt` of `e2ee_v2.ts` (see `encPre`);
fails on input not produced by `encryptStr` with the same passphrase. -/
def decryptStr (cipher pass : Str) : Except Str Str :=
  if startsWith (encPre pass) cipher then .ok (cipher.drop (encPre pass).length)
  else .error (lit "DecryptError")

/-- Modelled from the spec: the bidirectional LRU cache of `LRUCache.ts`
(not in this snapshot).  §4.4: forward map `chunkId → plaintext` and reverse
lookup by plaintext.  Keys and values are `Option Str` because the store
calls `set` with a JS `undefined` key (see `processBulkRows`); LRU eviction
is abstracted away (it only removes entries and no claim depends on the
bounds). -/
structure HashCache where
  entries : List (Option Str × Option Str)

/-- The empty cache. -/
def HashCache.empty : HashCache := ⟨[]⟩

/-- Modelled from the spec: `LRUCache.get` — forward lookup; returns
`none` for a missing key (JS `undefined`). -/
def HashCache.get (c : HashCache) (k : Str) : Option Str :=
  match c.entries.find? (fun e => e.1 = some k) with
  | some e => e.2
  | none => none

/-- Modelled from the spec: `LRUCache.set` — insert or replace. -/
def HashCache.set (c : HashCache) (k v : Option Str) : HashCache :=
  ⟨(k, v) :: c.entries.filter (fun e => ¬(e.1 = k))⟩

/-- Modelled from the spec: `LRUCache.revGet` — reverse lookup by value. -/
def HashCache.revGet (c : HashCache) (v : Str) : Option Str :=
  match c.entries.find? (fun e => e.2 = some v) with
  | some e => e.1
  | none => none

deriving instance DecidableEq for Except

/-- A stored CouchDB document, as a record of optional fields (a JS object
may or may not carry each field).  `rev` is the server-side revision
counter; on the wire `_rev` is a string but only equality and presence
matter to the store. -/
structure StoredDoc where
  rev : Nat := 0
  dtype : Option Str := none
  data : Option Str := none
  path : Option Str := none
  children : Option (List Str) := none
  ctime : Option Int := none
  mtime : Option Int := none
  size : Option Int := none
  deleted : Option Bool := none
deriving DecidableEq

/-- The remote CouchDB database: an association list from document id to the
current revision of the document. -/
structure CouchDB where
  docs : List (Str × StoredDoc)
deriving DecidableEq

/-- Association-list lookup (first match). -/
def lookupA {α : Type} : List (Str × α) → Str → Option α
  | [], _ => none
  | e :: t, k => if e.1 = k then some e.2 else lookupA t k

/-- Association-list insert-or-replace (JS object property assignment). -/
def setA {α : Type} : List (Str × α) → Str → α → List (Str × α)
  | [], k, v => [(k, v)]
  | (k', v') :: t, k, v =>
    if k' = k then (k, v) :: t else (k', v') :: setA t k v

/-- `GET /{db}/{id}`: the current document, if any. -/
def CouchDB.get (db : CouchDB) (id : Str) : Option StoredDoc :=
  lookupA db.docs id

/-- Server-side insert-or-replace. -/
def CouchDB.store (db : CouchDB) (id : Str) (d : StoredDoc) : CouchDB :=
  ⟨setA db.docs id d⟩

/-- `PUT /{db}/{id}` with an optional `_rev` attached to the body: CouchDB
accepts the write iff the document is new and no revision was supplied, or
the supplied revision equals the current one; otherwise it answers
`conflict` (not ok). -/
def CouchDB.putDoc (db : CouchDB) (id : Str) (d : StoredDoc) (rev : Option Nat) :
    CouchDB × Bool :=
  match db.get id, rev with
  | none, none => (db.store id { d with rev := 1 }, true)
  | some old, some r =>
    if r = old.rev then (db.store id { d with rev := old.rev + 1 }, true)
    else (db, false)
  | _, _ => (db, false)

/-- A leaf document as uploaded by `put` via `_bulk_docs`:
`{_id, data, type: "leaf"}`. -/
structure UploadLeaf where
  _id : Str
  data : Str
deriving DecidableEq

/-- A per-document `_bulk_docs` result row.  Spec §4.5: rows are
`{ok|error, id, rev?}` — note the field holding the document id is `id`;
there is no `key` field on these rows. -/
structure BulkRow where
  ok : Bool
  id : Str
  error : Option Str := none
deriving DecidableEq

/-- `POST /{db}/_bulk_docs`: documents are uploaded without `_rev`, so a
fresh id is created (ok) and an existing id answers a `conflict` row and is
left unchanged. -/
def CouchDB.bulkPut : CouchDB → List UploadLeaf → CouchDB × List BulkRow
  | db, [] => (db, [])
  | db, d :: ds =>
    match db.get d._id with
    | some _ =>
      let (db2, rows) := CouchDB.bulkPut db ds
      (db2, { ok := false, id := d._id, error := some (lit "conflict") } :: rows)
    | none =>
      let db1 := db.store d._id { rev := 1, dtype := some (lit "leaf"), data := some d.data }
      let (db2, rows) := CouchDB.bulkPut db1 ds
      (db2, { ok := true, id := d._id } :: rows)

/-- A row of `POST /_all_docs` with `keys`: one row per requested key, in
request order; a missing key yields an `error` row (no `doc`). -/
def CouchDB.allDocsRows (db : CouchDB) (keys : List Str) : List (Str × Option StoredDoc) :=
  keys.map (fun k => (k, db.get k))

/-- Constant from `types.ts`. -/
def SALT_OF_PASSPHRASE : Str := lit "rHGMPtr6oWw7VSa3W3wpa8fT8U"

/-- Constant from `types.ts`. -/
def PREFIX_CHUNK : Str := lit "h:"

/-- Constant from `types.ts`. -/
def PREFIX_ENCRYPTED_CHUNK : Str := lit "h:+"

/-- `DirectFileManipulatorOptions` (the fields the store core reads).
`useDynamicIterationCount` only selects a KDF mode inside the crypto
primitive and is absorbed by the crypto model. -/
structure DFMOptions where
  passphrase : Option Str := none
  obfuscatePassphrase : Option Str := none
  customChunkSize : Option Nat := none
  minimumChunkSize : Option Nat := none
  useV1 : Bool := false
deriving DecidableEq

/-- `FileInfo` from the source. -/
structure FileInfo where
  ctime : Int
  mtime : Int
  size : Int
deriving DecidableEq

/-- Client-plus-server state: the remote database and the manipulator's
`hashCaches`. -/
structure DBState where
  db : CouchDB
  cache : HashCache

/-- The empty state. -/
def DBState.empty : DBState := ⟨⟨[]⟩, HashCache.empty⟩

namespace DFM

/-- The piece-hash/leaf-id computation of `put` (source lines 447–453).
`h` stands for the external `xxhash64` primitive (`xxhash-wasm`), taken as a
parameter: the store only depends on it being a deterministic function of
its input string. -/
def computeLeafId (h : Str → Nat) (opts : DFMOptions) (piece : Str) : Str :=
  if truthyS opts.passphrase then
    lit "h:" ++ (lit "+" ++
      toBase36 (h (piece ++ lit "-" ++ opts.passphrase.getD [] ++ lit "-" ++ natToStr piece.length)))
  else
    lit "h:" ++ toBase36 (h (piece ++ lit "-" ++ natToStr piece.length))

/-- Modelled from the spec: `shouldSplitAsPlainText` of `path.ts` (not in
this snapshot); §4.1: true when the path matches text-splittable extensions
such as markdown. -/
def shouldSplitAsPlainText (path : Str) : Bool :=
  (lit ".md").isSuffixOf path

/-- Modelled from the spec: `path2id_base` of `path.ts` (not in this
snapshot); §4.2: with an obfuscation passphrase the id is a deterministic
salted hash of the path (here rendered with the reserved `f:` obfuscated
prefix), otherwise the id is the canonical form of the path itself. -/
def path2id_base (h : Str → Nat) (path : Str) (obf : Option Str) : Str :=
  if truthyS obf then lit "f:" ++ toBase36 (h (SALT_OF_PASSPHRASE ++ obf.getD [] ++ path))
  else path

/-- `DirectFileManipulator.path2id`. -/
def path2id (h : Str → Nat) (opts : DFMOptions) (path : Str) : Str :=
  path2id_base h path opts.obfuscatePassphrase

/-- `maxChunkSize` of `put` (source line 424):
`Math.floor(MAX_DOC_SIZE_BIN * ((customChunkSize || 0) * (useV1 ? 1 : 0.1) + 1))`
with `MAX_DOC_SIZE_BIN = 102400`.  Over the rationals the value is exactly
`102400·(c+1)` (V1) or `102400 + 10240·c`; the float rounding of `0.1`
cannot shift the floor for representable configuration sizes. -/
def maxChunkSize (opts : DFMOptions) : Nat :=
  let c := (opts.customChunkSize).getD 0
  if opts.useV1 then 102400 * (c + 1) else 102400 + 10240 * c

/-- `minimumChunkSize` of `put` (source line 428):
`this.options.minimumChunkSize || 20` (JS `||`: `0` and `undefined` give
`20`). -/
def effMinimumChunkSize (opts : DFMOptions) : Nat :=
  match opts.minimumChunkSize with
  | some n => if n = 0 then 20 else n
  | none => 20

/-- Fixed-size splitting with explicit fuel (any fuel at least the length
of the string gives the untruncated splitting; the fuel-exhausted branch
keeps the coverage property). -/
def chunksOfGo (n : Nat) : Nat → Str → List Str
  | 0, s => if s = [] then [] else [s]
  | fuel + 1, s =>
    if s = [] then [] else if n = 0 then [s] else s.take n :: chunksOfGo n fuel (s.drop n)

/-- Modelled from the spec: `splitPieces2` of `strbin.ts` (not in this
snapshot).  §4.1: the chunker is a deterministic, lazy splitting of the
concatenated input into size-bounded pieces; concatenating all produced
pieces equals the concatenation of the input segments.  The delimiter-aware
placement used for plain text is abstracted to fixed byte boundaries: no
claim depends on where the cuts fall, only on determinism and coverage.
The parameter list mirrors the source signature. -/
def splitPieces2 (dataSrc : List Str) (pieceSize : Nat) (plainSplit : Bool)
    (minimumChunkSize : Nat) (path : Str) (useV1 : Bool) : List Str :=
  chunksOfGo pieceSize (joinS dataSrc).length (joinS dataSrc)

/-- `unique` (source line 236): `[...new Set(obj)]` keeps the first
occurrence of each element, in order. -/
def unique : List Str → List Str
  | [] => []
  | x :: t => x :: (unique t).filter (fun y => ¬(y = x))

/-- The values of the `ret` record built by `_collectChunks`
(`Record<string, string | boolean>`). -/
inductive CVal
  | str (s : Str)
  | bool (b : Bool)
deriving DecidableEq

/-- JS truthiness of a `string | boolean` value. -/
def CVal.truthy : CVal → Bool
  | .str s => !s.isEmpty
  | .bool b => b

/-- First loop of `_collectChunks` (source lines 296–303): serve ids from
the cache, queue the misses for the remote request, in order. -/
def cachePartition (cache : HashCache) : List Str → List (Str × CVal) × List Str
  | [] => ([], [])
  | id :: t =>
    match cache.get id with
    | some s =>
      let (r, q) := cachePartition cache t
      (setA r id (.str s), q)
    | none =>
      let (r, q) := cachePartition cache t
      (r, id :: q)

/-- Row loop of `_collectChunks` (source lines 311–335).  A row with an
`error` marks the id `false`; in existence mode any present row marks
`true`; otherwise a present row must be a `leaf` document carrying `data`,
whose payload is decrypted when a passphrase is configured and recorded in
the cache. -/
def processRows (opts : DFMOptions) (onlyCheckExistence : Bool) :
    List (Str × Option StoredDoc) → List (Str × CVal) → HashCache →
    Except Str (List (Str × CVal) × HashCache)
  | [], ret, cache => .ok (ret, cache)
  | (k, none) :: rows, ret, cache =>
    processRows opts onlyCheckExistence rows (setA ret k (.bool false)) cache
  | (k, some doc) :: rows, ret, cache =>
    if onlyCheckExistence then
      processRows opts onlyCheckExistence rows (setA ret k (.bool true)) cache
    else if ¬(doc.dtype = some (lit "leaf")) then
      .error (lit "Corrupted chunk found (Pointed non-chunk object) (" ++ k ++ lit ")")
    else
      match doc.data with
      | none => .error (lit "Corrupted chunk found (No data contained) (" ++ k ++ lit ")")
      | some dataSrc =>
        match (if truthyS opts.passphrase then decryptStr dataSrc (opts.passphrase.getD [])
               else .ok dataSrc) with
        | .error e => .error e
        | .ok d =>
          processRows opts onlyCheckExistence rows (setA ret k (.str d))
            (cache.set (some k) (some d))

/-- `DirectFileManipulator._collectChunks`.  The `include_docs` flag is
omitted in existence mode; our server model always returns the doc and the
existence branch ignores it, which is observationally the same. -/
def collectChunks (opts : DFMOptions) (db : CouchDB) (cache : HashCache)
    (ids : List Str) (onlyCheckExistence : Bool) :
    Except Str (List (Str × CVal) × HashCache) :=
  let pr := cachePartition cache ids
  if pr.2 = [] then .ok (pr.1, cache)
  else processRows opts onlyCheckExistence (db.allDocsRows (unique pr.2)) pr.1 cache

/-- `DirectFileManipulator.encryptDocumentPath`: encrypts the `path` field
under `options.obfuscatePassphrase` when that option is truthy. -/
def encryptDocumentPath (opts : DFMOptions) (d : StoredDoc) : StoredDoc :=
  if truthyS opts.obfuscatePassphrase then
    { d with path := d.path.map (fun p => encryptStr p (opts.obfuscatePassphrase.getD [])) }
  else d

/-- `DirectFileManipulator.decryptDocumentPath`: decrypts the `path` field
under `options.passphrase` when that option is truthy; a failing decryption
aborts the enclosing operation. -/
def decryptDocumentPath (opts : DFMOptions) (d : StoredDoc) : Except Str StoredDoc :=
  if truthyS opts.passphrase then
    match d.path with
    | some p =>
      match decryptStr p (opts.passphrase.getD []) with
      | .ok q => .ok { d with path := some q }
      | .error e => .error e
    | none => .error (lit "DecryptError")
  else .ok d

/-- Result of `getById`/`get`: JS `false`, a meta entry, or a ready entry
with its assembled data. -/
inductive GetResult
  | notFound
  | meta (d : StoredDoc)
  | ready (d : StoredDoc) (data : List Str)
deriving DecidableEq

/-- The `type` guard of `getById` (source line 391). -/
def isMetaType (d : StoredDoc) : Bool :=
  decide (d.dtype = some (lit "plain")) || decide (d.dtype = some (lit "newnote"))

/-- `DirectFileManipulator.getByMeta` (source lines 401–409): resolve
`children`, then any entry still `false` is a hard error; otherwise the
entry is returned with the ordered chunk payloads. -/
def getByMeta (opts : DFMOptions) (db : CouchDB) (cache : HashCache) (d : StoredDoc) :
    Except Str (GetResult × HashCache) :=
  match d.children with
  | none => .error (lit "TypeError: children is not iterable")
  | some cs =>
    match collectChunks opts db cache cs false with
    | .error e => .error e
    | .ok (chunks, cache2) =>
      let data := cs.map (fun e =>
        match lookupA chunks e with
        | some v => if v = CVal.bool false then CVal.bool false else v
        | none => CVal.bool false)
      if data.any (fun v => v = CVal.bool false) then
        .error (lit "Missing chunks: " ++ d.path.getD [] ++ lit "!")
      else
        .ok (.ready d (data.map (fun v => match v with | .str s => s | .bool _ => [])), cache2)

/-- `DirectFileManipulator.getById` (source lines 387–400). -/
def getById (opts : DFMOptions) (st : DBState) (id : Str) (metaOnly : Bool) :
    Except Str (GetResult × HashCache) :=
  match st.db.get id with
  | none => .ok (.notFound, st.cache)
  | some docEntry =>
    if ¬(isMetaType docEntry = true) then .ok (.notFound, st.cache)
    else
      match decryptDocumentPath opts docEntry with
      | .error e => .error e
      | .ok doc =>
        if metaOnly then .ok (.meta doc, st.cache)
        else getByMeta opts st.db st.cache doc

/-- `DirectFileManipulator.get` (source lines 373–379). -/
def get (h : Str → Nat) (opts : DFMOptions) (st : DBState) (path : Str) (metaOnly : Bool) :
    Except Str (GetResult × HashCache) :=
  getById opts st (path2id h opts path) metaOnly

/-- Chunk-building loop of `put` (source lines 438–456): for each piece,
probe the cache by plaintext (`revGet`, with JS truthiness on the returned
id) and otherwise compute the leaf id; record the piece under its id and
append the id to `children`. -/
def makeChunksGo (h : Str → Nat) (opts : DFMOptions) (cache : HashCache) :
    List Str → List (Str × Str) → List Str → List (Str × Str) × List Str
  | [], chunks, children => (chunks, children)
  | piece :: rest, chunks, children =>
    let cid :=
      match cache.revGet piece with
      | some c => if c.isEmpty then computeLeafId h opts piece else c
      | none => computeLeafId h opts piece
    makeChunksGo h opts cache rest (setA chunks cid piece) (children ++ [cid])

/-- Chunk-building loop of `put`, starting from empty accumulators. -/
def makeChunks (h : Str → Nat) (opts : DFMOptions) (cache : HashCache) (pieces : List Str) :
    List (Str × Str) × List Str :=
  makeChunksGo h opts cache pieces [] []

/-- `_bulk_docs` result loop of `put` (source lines 469–477).  An `ok` row
runs `hashCaches.set(ret.key, chunks[ret.key])` — but result rows carry an
`id` field, not `key` (spec §4.5), so both arguments are the JS `undefined`
value, modelled as `none`.  A non-ok row whose `error` is not `"conflict"`
throws; a `conflict` row is skipped. -/
def processBulkRows (chunks : List (Str × Str)) :
    HashCache → List BulkRow → Except Str HashCache
  | cache, [] => .ok cache
  | cache, r :: rows =>
    if r.ok then processBulkRows chunks (cache.set none none) rows
    else if ¬(r.error = some (lit "conflict")) then
      .error (lit "Chunk uploading failed! " ++ r.id)
    else processBulkRows chunks cache rows

/-- The piece list `put` computes (source lines 424–434). -/
def putPieces (opts : DFMOptions) (path : Str) (data : List Str) : List Str :=
  splitPieces2 data (maxChunkSize opts) (shouldSplitAsPlainText path)
    (effMinimumChunkSize opts) path opts.useV1

/-- The `chunksToBeUploaded` list `put` submits to `_bulk_docs` (source
lines 457–466): the chunks whose ids the existence probe reported absent
(JS-falsy), each with its payload encrypted when a passphrase is
configured. -/
def putUploads (h : Str → Nat) (opts : DFMOptions) (st : DBState) (path : Str)
    (data : List Str) : List UploadLeaf :=
  let mc := makeChunks h opts st.cache (putPieces opts path data)
  match collectChunks opts st.db st.cache (mc.1.map (fun e => e.1)) true with
  | .error _ => []
  | .ok pr =>
    (mc.1.filter (fun e => ¬((lookupA pr.1 e.1).elim false CVal.truthy))).map (fun e =>
      { _id := e.1,
        data := if truthyS opts.passphrase then encryptStr e.2 (opts.passphrase.getD [])
                else e.2 : UploadLeaf })

/-- `DirectFileManipulator.put` (source lines 419–501), parameterised over
the `_bulk_docs` responder so the per-row error policy can be stated against
arbitrary server answers; `put` instantiates it with the CouchDB model. -/
def putWith (bulk : CouchDB → List UploadLeaf → CouchDB × List BulkRow)
    (h : Str → Nat) (opts : DFMOptions) (st : DBState) (path : Str) (data : List Str)
    (info : FileInfo) (dtype : Str) : Except Str (Bool × DBState) :=
  let id := path2id h opts path
  let mc := makeChunks h opts st.cache (putPieces opts path data)
  match collectChunks opts st.db st.cache (mc.1.map (fun e => e.1)) true with
  | .error e => .error e
  | .ok _ =>
    let br := bulk st.db (putUploads h opts st path data)
    match processBulkRows mc.1 st.cache br.2 with
    | .error e => .error e
    | .ok cache2 =>
      let theEntry := encryptDocumentPath opts
        { dtype := some dtype, path := some path, children := some mc.2,
          ctime := some info.ctime, mtime := some info.mtime, size := some info.size }
      match getById opts ⟨br.1, cache2⟩ id true with
      | .error e => .error e
      | .ok gr =>
        let rev := match gr.1 with
          | .meta d => some d.rev
          | _ => none
        let pd := br.1.putDoc id theEntry rev
        .ok (pd.2, ⟨pd.1, gr.2⟩)

/-- `DirectFileManipulator.put` against the CouchDB model. -/
def put (h : Str → Nat) (opts : DFMOptions) (st : DBState) (path : Str) (data : List Str)
    (info : FileInfo) (dtype : Str) : Except Str (Bool × DBState) :=
  putWith CouchDB.bulkPut h opts st path data info dtype

/-- Tombstone construction and write of `delete` (source lines 513–532),
applied to the (path-decrypted) existing entry `d`.  The JS code sets
`data` to the entry's `data` when present and to an empty array otherwise;
the latter is modelled as the field staying absent (no claim reads it). -/
def deleteCore (opts : DFMOptions) (st : DBState) (id : Str) (d : StoredDoc) (now : Int) :
    Except Str (Bool × DBState) :=
  if d.rev = 0 then .ok (true, st)
  else if d.deleted = some true then .ok (true, st)
  else
    let newData := encryptDocumentPath opts
      { path := d.path, children := some [], ctime := d.ctime, mtime := some now,
        size := some 0, dtype := d.dtype, deleted := some true, data := d.data }
    let (db2, ok) := st.db.putDoc id newData (some d.rev)
    .ok (ok, ⟨db2, st.cache⟩)

/-- `DirectFileManipulator.delete` (source lines 503–533); `now` stands for
`Date.now()`. -/
def delete (h : Str → Nat) (opts : DFMOptions) (st : DBState) (path : Str) (now : Int) :
    Except Str (Bool × DBState) :=
  let id := path2id h opts path
  match getById opts st id true with
  | .error e => .error e
  | .ok (old, _) =>
    match old with
    | .notFound => .ok (true, st)
    | .meta d => deleteCore opts st id d now
    | .ready d _ => deleteCore opts st id d now

end DFM

/-- Is `b` a UTF-8 continuation byte? -/
def isCont (b : Nat) : Bool := 0x80 ≤ b && b ≤ 0xBF

/-- U+FFFD, the replacement character. -/
def repl : Char := Char.ofNat 0xFFFD

/-- The WHATWG `TextDecoder` UTF-8 decoder with replacement error mode, as a
single non-streaming `decode(chunk)` call runs it: each call starts fresh
and flushes at the end of its input, so an incomplete sequence at a chunk
boundary becomes U+FFFD.  (This is the platform primitive the source's
`readLines` calls, without `{stream: true}`.) -/
def utf8DecodeGo : Nat → List Nat → Str
  | 0, _ => []
  | _ + 1, [] => []
  | fuel + 1, b :: rest =>
    if b < 0x80 then Char.ofNat b :: utf8DecodeGo fuel rest
    else if 0xC2 ≤ b && b ≤ 0xDF then
      match rest with
      | [] => [repl]
      | c1 :: rest2 =>
        if isCont c1 then Char.ofNat ((b - 0xC0) * 64 + (c1 - 0x80)) :: utf8DecodeGo fuel rest2
        else repl :: utf8DecodeGo fuel rest
    else if 0xE0 ≤ b && b ≤ 0xEF then
      match rest with
      | [] => [repl]
      | c1 :: rest2 =>
        if (if b = 0xE0 then 0xA0 ≤ c1 && c1 ≤ 0xBF
            else if b = 0xED then 0x80 ≤ c1 && c1 ≤ 0x9F
            else isCont c1) then
          match rest2 with
          | [] => [repl, repl]
          | c2 :: rest3 =>
            if isCont c2 then
              Char.ofNat ((b - 0xE0) * 4096 + (c1 - 0x80) * 64 + (c2 - 0x80)) ::
                utf8DecodeGo fuel rest3
            else repl :: utf8DecodeGo fuel rest2
        else repl :: utf8DecodeGo fuel rest
    else if 0xF0 ≤ b && b ≤ 0xF4 then
      match rest with
      | [] => [repl]
      | c1 :: rest2 =>
        if (if b = 0xF0 then 0x90 ≤ c1 && c1 ≤ 0xBF
            else if b = 0xF4 then 0x80 ≤ c1 && c1 ≤ 0x8F
            else isCont c1) then
          match rest2 with
          | [] => [repl, repl]
          | c2 :: rest3 =>
            if isCont c2 then
              match rest3 with
              | [] => [repl, repl, repl]
              | c3 :: rest4 =>
                if isCont c3 then
                  Char.ofNat ((b - 0xF0) * 262144 + (c1 - 0x80) * 4096 +
                    (c2 - 0x80) * 64 + (c3 - 0x80)) :: utf8DecodeGo fuel rest4
                else repl :: utf8DecodeGo fuel rest3
            else repl :: utf8DecodeGo fuel rest2
        else repl :: utf8DecodeGo fuel rest
    else repl :: utf8DecodeGo fuel rest

/-- The decoder with its natural fuel (each step consumes at least one
byte, so the input length is always enough fuel). -/
def utf8Decode (l : List Nat) : Str := utf8DecodeGo l.length l

/-- Standard UTF-8 encoding of one character. -/
def utf8EncodeChar (c : Char) : List Nat :=
  let n := c.toNat
  if n < 0x80 then [n]
  else if n < 0x800 then [0xC0 + n / 64, 0x80 + n % 64]
  else if n < 0x10000 then [0xE0 + n / 4096, 0x80 + (n / 64) % 64, 0x80 + n % 64]
  else [0xF0 + n / 262144, 0x80 + (n / 4096) % 64, 0x80 + (n / 64) % 64, 0x80 + n % 64]

/-- Standard UTF-8 encoding of a string. -/
def utf8Encode (s : Str) : List Nat := (s.map utf8EncodeChar).flatten

/-- `readLines` (source lines 768–784) on a byte-chunk stream: decode each
chunk (non-streaming), split on `\n`, yield the buffered partial line glued
to the first fragment plus all complete middle lines, and buffer the final
fragment; when the stream ends the buffered partial line is dropped. -/
def readLinesGo : List (List Nat) → Str → List Str
  | [], _ => []
  | chunk :: rest, partOfLine =>
    match List.splitOn '\n' (utf8Decode chunk) with
    | [] => readLinesGo rest partOfLine
    | [only] => readLinesGo rest (partOfLine ++ only)
    | first :: more => (partOfLine ++ first) :: (more.dropLast ++ readLinesGo rest (more.getLastD []))

/-- `readLines` started with an empty buffer. -/
def readLines (chunks : List (List Nat)) : List Str := readLinesGo chunks []

/-- The highest representable character, `\u{10ffff}` in the source. -/
def maxChar : Char := Char.ofNat 0x10FFFF

/-- The five `(startKey, endKey)` pairs of `enumerateAllNormalDocs`
(source lines 609–615). -/
def enumRanges : List (Str × Str) :=
  [(lit "", lit "h:"),
   (lit "h:" ++ [maxChar], lit "i:"),
   (lit "i:" ++ [maxChar], lit "ix:"),
   (lit "ix:" ++ [maxChar], lit "ps:"),
   (lit "ps:" ++ [maxChar], [maxChar])]

/-- Membership of an id in a `(startkey, endkey)` pair as CouchDB
`_all_docs` evaluates it: both endpoints inclusive (`inclusive_end`
defaults to true and the source does not override it), raw key collation
(codepoint order). -/
def inRange (id : Str) (r : Str × Str) : Prop := r.1 ≤ id ∧ id ≤ r.2

instance (id : Str) (r : Str × Str) : Decidable (inRange id r) := by
  unfold inRange; infer_instance

/-- One `_all_docs` page over the server's sorted id list `L`:
the ids in `[startK, endK]`, first `limit` of them. -/
def allDocsPage (L : List Str) (startK endK : Str) (limit : Nat) : List Str :=
  (L.filter (fun id => decide (startK ≤ id) && decide (id ≤ endK))).take limit

/-- `DirectFileManipulator._enumerate` (source lines 561–606) at the level
of the row ids it pages through: request `[key, endK]` with page size 100,
stop on an empty page, else advance `key` to the last row's key with
`\u{10ffff}` appended.  (The type filter and per-entry decryption/assembly
only subselect from these rows, so properties of the id sequence carry over
to the yielded documents.)  `fuel` bounds the number of pages. -/
def enumRangeIds (L : List Str) (endK : Str) : Nat → Str → List Str
  | 0, _ => []
  | fuel + 1, key =>
    let rows := allDocsPage L key endK 100
    match rows.getLast? with
    | none => []
    | some last => rows ++ enumRangeIds L endK fuel (last ++ [maxChar])

/-- `DirectFileManipulator.enumerateAllNormalDocs` (source lines 607–621) at
the id level: the five ranges are enumerated in order. -/
def enumerateAllNormalDocsIds (fuel : Nat) (L : List Str) : List Str :=
  (enumRanges.map (fun r => enumRangeIds L r.2 fuel r.1)).flatten

/-- A row of a `_changes` response; only the `seq` cursor is relevant to the
paging contract (the per-row document processing does not touch `since`). -/
structure ChangeRow where
  seq : Nat
deriving DecidableEq

/-- A `feed=normal` `_changes` request: the rows strictly after `since`, up
to `limit` of them, plus the `pending` count of rows remaining after the
batch. -/
def changesNormal (feed : List ChangeRow) (since : Nat) (limit : Nat) :
    List ChangeRow × Nat :=
  let rest := feed.filter (fun c => since < c.seq)
  (rest.take limit, rest.length - limit)

/-- `DirectFileManipulator.followUpdates` (source lines 711–763): repeat
`_changes` with `feed=normal`, `limit=25`, assigning `since := seq` for each
result in order, while the response reports `pending > 0`; return the final
`since` together with the list of `seq` values processed (the order in which
the callback observes them).  `fuel` bounds the number of requests. -/
def followUpdatesGo (feed : List ChangeRow) : Nat → Nat → Nat × List Nat
  | 0, since => (since, [])
  | fuel + 1, since =>
    let rp := changesNormal feed since 25
    let s2 := rp.1.foldl (fun _ c => c.seq) since
    let processed := rp.1.map (fun c => c.seq)
    if 0 < rp.2 then
      let rec2 := followUpdatesGo feed fuel s2
      (rec2.1, processed ++ rec2.2)
    else (s2, processed)

/-- `followUpdates` with the source's `since` initialisation (an unset
cursor starts at `0`). -/
def followUpdates (fuel : Nat) (feed : List ChangeRow) (since : Nat) : Nat × List Nat :=
  followUpdatesGo feed fuel since

/-- The payload `put` stores for a piece: encrypted iff a passphrase is
configured (the same expression `_collectChunks` inverts on fetch). -/
def encPayload (opts : DFMOptions) (x : Str) : Str :=
  if truthyS opts.passphrase then encryptStr x (opts.passphrase.getD []) else x

theorem startsWith_iff (p s : Str) : startsWith p s = true ↔ ∃ t, s = p ++ t := by
  induction p generalizing s with
  | nil => simp [startsWith]
  | cons c p ih =>
    cases s with
    | nil => simp [startsWith]
    | cons d s =>
      simp only [startsWith, Bool.and_eq_true, decide_eq_true_eq, ih]
      constructor
      · rintro ⟨rfl, t, rfl⟩; exact ⟨t, rfl⟩
      · rintro ⟨t, h⟩
        injection h with h1 h2
        exact ⟨h1.symm, t, h2⟩

theorem startsWith_append (p t : Str) : startsWith p (p ++ t) = true :=
  (startsWith_iff p (p ++ t)).mpr ⟨t, rfl⟩

theorem decryptStr_encryptStr (p pass : Str) :
    decryptStr (encryptStr p pass) pass = .ok p := by
  simp [decryptStr, encryptStr, startsWith_append, List.drop_left]

theorem encPre_length_pos (pass : Str) : 0 < (encPre pass).length := by
  simp [encPre, lit]

theorem decryptStr_ok (cipher pass out : Str) :
    decryptStr cipher pass = .ok out → cipher = encPre pass ++ out := by
  intro h
  unfold decryptStr at h
  by_cases hs : startsWith (encPre pass) cipher = true
  · obtain ⟨t, rfl⟩ := (startsWith_iff _ _).mp hs
    simp only [hs, if_true, List.drop_left, Except.ok.injEq] at h
    exact h ▸ rfl
  · simp [hs] at h


theorem natDigits_lt (b : Nat) (hb : 0 < b) :
    ∀ fuel n d, d ∈ natDigits b fuel n → d < b := by
  intro fuel
  induction fuel with
  | zero => intro n d hd; simp [natDigits] at hd
  | succ f ih =>
    intro n d hd
    cases n with
    | zero => simp [natDigits] at hd
    | succ m =>
      simp only [natDigits, List.mem_cons] at hd
      rcases hd with h | h
      · exact h ▸ Nat.mod_lt _ hb
      · exact ih _ _ h

theorem toBaseStr_ne_nil (b n : Nat) : toBaseStr b n ≠ [] := by
  unfold toBaseStr
  by_cases h : n = 0
  · simp [h]
  · cases n with
    | zero => simp at h
    | succ m => simp [h, natDigits]

theorem toBase36_ne_nil (n : Nat) : toBase36 n ≠ [] := toBaseStr_ne_nil 36 n

theorem digitChar36_ne_plus : ∀ d, d < 36 → digitChar36 d ≠ '+' := by decide

theorem mem_toBase36_ne_plus (n : Nat) : ∀ c ∈ toBase36 n, c ≠ '+' := by
  intro c hc
  unfold toBase36 toBaseStr at hc
  by_cases h : n = 0
  · simp [h] at hc
    simp [hc]
  · simp only [h, if_false, List.mem_map, List.mem_reverse] at hc
    obtain ⟨d, hd, rfl⟩ := hc
    exact digitChar36_ne_plus d (natDigits_lt 36 (by decide) n n d hd)

theorem startsWith_chunk_enc_iff (t : Str) (hne : t ≠ []) (hplus : ∀ c ∈ t, c ≠ '+') :
    startsWith PREFIX_ENCRYPTED_CHUNK (lit "h:" ++ t) = false := by
  cases t with
  | nil => exact absurd rfl hne
  | cons c t2 =>
    have hc : c ≠ '+' := hplus c (List.mem_cons_self c t2)
    simp [PREFIX_ENCRYPTED_CHUNK, lit, startsWith, Ne.symm hc]

/-- Claim C2: the leaf id computed by `put` for a piece `p` is
`"h:" ++ base36(xxhash64(p ++ "-" ++ length(p)))` when no passphrase is
configured and `"h:+" ++ base36(xxhash64(p ++ "-" ++ passphrase ++ "-" ++ length(p)))`
when one is, and the id starts with `"h:+"` iff a passphrase is configured
(it always starts with `"h:"`). -/
theorem C2_leaf_id_derivation (h : Str → Nat) (opts : DFMOptions) (piece : Str) :
    (∀ pp, opts.passphrase = some pp → pp ≠ [] →
      DFM.computeLeafId h opts piece =
        PREFIX_ENCRYPTED_CHUNK ++
          toBase36 (h (piece ++ lit "-" ++ pp ++ lit "-" ++ natToStr piece.length)))
    ∧ (truthyS opts.passphrase = false →
      DFM.computeLeafId h opts piece =
        PREFIX_CHUNK ++ toBase36 (h (piece ++ lit "-" ++ natToStr piece.length)))
    ∧ (startsWith PREFIX_ENCRYPTED_CHUNK (DFM.computeLeafId h opts piece) = true
        ↔ truthyS opts.passphrase = true)
    ∧ startsWith PREFIX_CHUNK (DFM.computeLeafId h opts piece) = true := by
  refine ⟨?_, ?_, ?_, ?_⟩
  · intro pp hpp hne
    have ht2 : truthyS (some pp) = true := by
      simp [truthyS, List.isEmpty_iff, hne]
    simp only [DFM.computeLeafId, hpp, Option.getD_some, ht2, if_true]
    have hpc : PREFIX_ENCRYPTED_CHUNK = lit "h:" ++ lit "+" := by decide
    rw [hpc, List.append_assoc]
    rfl
  · intro hf
    simp [DFM.computeLeafId, hf, PREFIX_CHUNK]
  · constructor
    · intro hs
      by_contra hf
      rw [Bool.not_eq_true] at hf
      rw [DFM.computeLeafId, hf, if_neg (by simp)] at hs
      rw [startsWith_chunk_enc_iff (toBase36 _) (toBase36_ne_nil _) (mem_toBase36_ne_plus _)] at hs
      exact Bool.false_ne_true hs
    · intro ht
      rw [DFM.computeLeafId, ht, if_pos rfl]
      show startsWith _ ((lit "h:" ++ lit "+") ++ _) = true
      rw [List.append_assoc]
      exact startsWith_append _ _
  · have hpc : PREFIX_CHUNK = lit "h:" := by decide
    by_cases ht : truthyS opts.passphrase = true
    · simp only [DFM.computeLeafId, ht, if_true]
      rw [hpc]
      exact startsWith_append _ _
    · rw [Bool.not_eq_true] at ht
      simp only [DFM.computeLeafId, ht, Bool.false_eq_true, if_false]
      rw [hpc]
      exact startsWith_append _ _

/-- Witness for C2 at a concrete passphrase, piece and hash function. -/
theorem C2_leaf_id_derivation_witness :
    DFM.computeLeafId (fun s => s.length + 7) { passphrase := some (lit "p") } (lit "xy") =
      PREFIX_ENCRYPTED_CHUNK ++
        toBase36 ((fun (s : Str) => s.length + 7)
          (lit "xy" ++ lit "-" ++ lit "p" ++ lit "-" ++ natToStr (lit "xy").length))
    ∧ startsWith PREFIX_ENCRYPTED_CHUNK
        (DFM.computeLeafId (fun s => s.length + 7) { passphrase := some (lit "p") } (lit "xy")) = true
    ∧ DFM.computeLeafId (fun s => s.length + 7) {} (lit "xy") =
        PREFIX_CHUNK ++
          toBase36 ((fun (s : Str) => s.length + 7) (lit "xy" ++ lit "-" ++ natToStr (lit "xy").length)) := by
  refine ⟨?_, ?_, ?_⟩
  · exact (C2_leaf_id_derivation (fun s => s.length + 7) { passphrase := some (lit "p") }
      (lit "xy")).1 (lit "p") rfl (by decide)
  · exact (C2_leaf_id_derivation (fun s => s.length + 7) { passphrase := some (lit "p") }
      (lit "xy")).2.2.1.mpr (by decide)
  · exact (C2_leaf_id_derivation (fun s => s.length + 7) {} (lit "xy")).2.1 (by decide)

/-- Claim C9: the claim says the cache maps a freshly uploaded chunk's id to
its plaintext after `put`.  Evaluating `put` at a concrete fresh file shows
the write succeeds but the cache holds a single `(undefined, undefined)`
entry and does not map the chunk's id: the source caches
`hashCaches.set(ret.key, chunks[ret.key])`, but `_bulk_docs` result rows
carry `id`, not `key` (spec §4.5), so both arguments are `undefined`.
(The `_collectChunks` fetch half of the claim does populate the cache — see
`C3`/`C1` machinery — the defect is only on the upload path.) -/
theorem C9_cache_population_bug :
    (DFM.put (fun s => s.length + 7) {} DBState.empty (lit "a.md") [lit "xy"]
        ⟨1, 2, 2⟩ (lit "plain")).toOption.map (fun r => r.1) = some true
    ∧ (DFM.put (fun s => s.length + 7) {} DBState.empty (lit "a.md") [lit "xy"]
        ⟨1, 2, 2⟩ (lit "plain")).toOption.map (fun r => r.2.cache.entries)
      = some [(none, none)]
    ∧ (DFM.put (fun s => s.length + 7) {} DBState.empty (lit "a.md") [lit "xy"]
        ⟨1, 2, 2⟩ (lit "plain")).toOption.map
        (fun r => r.2.cache.get (DFM.computeLeafId (fun s => s.length + 7) {} (lit "xy")))
      = some none := by
  refine ⟨by decide, by decide, by decide⟩

/-- Claim C6: the line reader does not yield every line intact for every
byte partitioning.  The stream is the UTF-8 encoding of one
newline-terminated JSON object containing `é` (0xC3 0xA9); splitting the
chunks inside that character makes the non-streaming `TextDecoder.decode`
calls emit two U+FFFD replacement characters, so the yielded line differs
from the line of the whole stream. -/
theorem C6_line_framing_bug :
    readLines [[0x7B, 0x22, 0x61, 0x22, 0x3A, 0x22, 0xC3], [0xA9, 0x22, 0x7D, 0x0A]]
      = [lit "\x7b\"a\":\"\uFFFD\uFFFD\"\x7d"]
    ∧ utf8Decode ([[0x7B, 0x22, 0x61, 0x22, 0x3A, 0x22, 0xC3], [0xA9, 0x22, 0x7D, 0x0A]].flatten)
      = lit "\x7b\"a\":\"\u00e9\"\x7d" ++ ['\n']
    ∧ lit "\x7b\"a\":\"\uFFFD\uFFFD\"\x7d" ≠ lit "\x7b\"a\":\"\u00e9\"\x7d" := by
  refine ⟨by decide, by decide, by decide⟩

theorem processRows_existence_ok (opts : DFMOptions) :
    ∀ rows ret cache, ∃ r, DFM.processRows opts true rows ret cache = .ok r := by
  intro rows
  induction rows with
  | nil => intro ret cache; exact ⟨(ret, cache), rfl⟩
  | cons row rest ih =>
    intro ret cache
    obtain ⟨k, doc⟩ := row
    cases doc with
    | none => exact ih (setA ret k (.bool false)) cache
    | some d => exact ih (setA ret k (.bool true)) cache

theorem collectChunks_existence_ok (opts : DFMOptions) (db : CouchDB) (cache : HashCache)
    (ids : List Str) : ∃ r, DFM.collectChunks opts db cache ids true = .ok r := by
  unfold DFM.collectChunks
  by_cases hq : (DFM.cachePartition cache ids).2 = []
  · exact ⟨((DFM.cachePartition cache ids).1, cache), by simp [hq]⟩
  · obtain ⟨r, hr⟩ := processRows_existence_ok opts
      (db.allDocsRows (DFM.unique (DFM.cachePartition cache ids).2))
      (DFM.cachePartition cache ids).1 cache
    exact ⟨r, by simp [hq, hr]⟩

theorem processBulkRows_ok_of (chunks : List (Str × Str)) :
    ∀ rows cache, (∀ r ∈ rows, r.ok = true ∨ r.error = some (lit "conflict")) →
    ∃ c2, DFM.processBulkRows chunks cache rows = .ok c2 := by
  intro rows
  induction rows with
  | nil => intro cache _; exact ⟨cache, rfl⟩
  | cons r rest ih =>
    intro cache hall
    rcases hall r (List.mem_cons_self r rest) with hok | hconf
    · simpa [DFM.processBulkRows, hok] using
        ih (cache.set none none) (fun x hx => hall x (List.mem_cons_of_mem r hx))
    · by_cases hok : r.ok = true
      · simpa [DFM.processBulkRows, hok] using
          ih (cache.set none none) (fun x hx => hall x (List.mem_cons_of_mem r hx))
      · rw [Bool.not_eq_true] at hok
        simpa [DFM.processBulkRows, hok, hconf] using
          ih cache (fun x hx => hall x (List.mem_cons_of_mem r hx))

theorem processBulkRows_error_of (chunks : List (Str × Str)) :
    ∀ rows cache, (∃ r ∈ rows, r.ok = false ∧ ¬(r.error = some (lit "conflict"))) →
    ∃ e, DFM.processBulkRows chunks cache rows = .error e := by
  intro rows
  induction rows with
  | nil => rintro cache ⟨r, hr, -⟩; exact absurd hr (List.not_mem_nil r)
  | cons r0 rest ih =>
    rintro cache ⟨r, hr, hok, hconf⟩
    rcases List.mem_cons.mp hr with rfl | hmem
    · refine ⟨lit "Chunk uploading failed! " ++ r.id, ?_⟩
      simp [DFM.processBulkRows, hok, hconf]
    · by_cases h0 : r0.ok = true
      · simpa [DFM.processBulkRows, h0] using
          ih (cache.set none none) ⟨r, hmem, hok, hconf⟩
      · rw [Bool.not_eq_true] at h0
        by_cases hc0 : r0.error = some (lit "conflict")
        · simpa [DFM.processBulkRows, h0, hc0] using ih cache ⟨r, hmem, hok, hconf⟩
        · refine ⟨lit "Chunk uploading failed! " ++ r0.id, ?_⟩
          simp [DFM.processBulkRows, h0, hc0]

/-- Claim C4: in the `_bulk_docs` result loop of `put`, a per-document
`conflict` error is treated as success (the loop continues and the write
proceeds), while any per-document result that is neither ok nor a conflict
throws, which aborts `put` before the metadata document is written (the
error return happens before the metadata `PUT` of source line 494; the
third conjunct states this for an arbitrary `_bulk_docs` responder). -/
theorem C4_leaf_upload_error_policy :
    (∀ (chunks : List (Str × Str)) (cache : HashCache) (rows : List BulkRow),
      (∀ r ∈ rows, r.ok = true ∨ r.error = some (lit "conflict")) →
      ∃ c2, DFM.processBulkRows chunks cache rows = .ok c2)
    ∧ (∀ (chunks : List (Str × Str)) (cache : HashCache) (rows : List BulkRow),
      (∃ r ∈ rows, r.ok = false ∧ ¬(r.error = some (lit "conflict"))) →
      ∃ e, DFM.processBulkRows chunks cache rows = .error e)
    ∧ (∀ (bulk : CouchDB → List UploadLeaf → CouchDB × List BulkRow) (h : Str → Nat)
        (opts : DFMOptions) (st : DBState) (path : Str) (data : List Str)
        (info : FileInfo) (dtype : Str),
      (∃ r ∈ (bulk st.db (DFM.putUploads h opts st path data)).2,
        r.ok = false ∧ ¬(r.error = some (lit "conflict"))) →
      ∃ e, DFM.putWith bulk h opts st path data info dtype = .error e) := by
  refine ⟨?_, ?_, ?_⟩
  · intro chunks cache rows hall
    exact processBulkRows_ok_of chunks rows cache hall
  · intro chunks cache rows hbad
    exact processBulkRows_error_of chunks rows cache hbad
  · intro bulk h opts st path data info dtype hbad
    obtain ⟨pr, hex⟩ := collectChunks_existence_ok opts st.db st.cache
      ((DFM.makeChunks h opts st.cache (DFM.putPieces opts path data)).1.map (fun e => e.1))
    obtain ⟨e, he⟩ := processBulkRows_error_of
      (DFM.makeChunks h opts st.cache (DFM.putPieces opts path data)).1
      (bulk st.db (DFM.putUploads h opts st path data)).2 st.cache hbad
    refine ⟨e, ?_⟩
    unfold DFM.putWith
    simp only [hex, he]

/-- Witness for C4: a lone `conflict` row is survived, a lone `badreq` row
makes the loop and a whole concrete `put` fail. -/
theorem C4_leaf_upload_error_policy_witness :
    (∃ c2, DFM.processBulkRows [] HashCache.empty
      [{ ok := false, id := lit "x", error := some (lit "conflict") }] = .ok c2)
    ∧ (∃ e, DFM.processBulkRows [] HashCache.empty
      [{ ok := false, id := lit "x", error := some (lit "badreq") }] = .error e)
    ∧ (∃ e, DFM.putWith
        (fun db _ => (db, [{ ok := false, id := lit "x", error := some (lit "badreq") }]))
        (fun s => s.length) {} DBState.empty (lit "a") [lit "xy"] ⟨1, 2, 2⟩ (lit "plain")
        = .error e) := by
  refine ⟨C4_leaf_upload_error_policy.1 _ _ _ (by decide),
    C4_leaf_upload_error_policy.2.1 _ _ _ ?_,
    C4_leaf_upload_error_policy.2.2 _ _ _ _ _ _ _ _ ?_⟩
  · refine ⟨_, List.mem_cons_self _ _, rfl, by decide⟩
  · refine ⟨_, List.mem_cons_self _ _, rfl, by decide⟩

theorem lookupA_setA_same {α : Type} (l : List (Str × α)) (k : Str) (v : α) :
    lookupA (setA l k v) k = some v := by
  induction l with
  | nil => simp [setA, lookupA]
  | cons e t ih =>
    obtain ⟨k', v'⟩ := e
    by_cases hk : k' = k
    · simp [setA, hk, lookupA]
    · simpa [setA, hk, lookupA] using ih

theorem lookupA_setA_ne {α : Type} (l : List (Str × α)) (k k2 : Str) (v : α)
    (hne : ¬(k2 = k)) : lookupA (setA l k v) k2 = lookupA l k2 := by
  have hne2 : ¬(k = k2) := fun h => hne h.symm
  induction l with
  | nil => simp [setA, lookupA, hne2]
  | cons e t ih =>
    obtain ⟨k', v'⟩ := e
    by_cases hk : k' = k
    · subst hk
      simp [setA, lookupA, hne2]
    · by_cases hk2 : k' = k2
      · subst hk2
        simp [setA, hne, lookupA]
      · simpa [setA, hk, lookupA, hk2] using ih

theorem mem_unique (l : List Str) (x : Str) : x ∈ DFM.unique l ↔ x ∈ l := by
  induction l with
  | nil => simp [DFM.unique]
  | cons y t ih =>
    rw [DFM.unique]
    constructor
    · intro hx
      rcases List.mem_cons.mp hx with rfl | hx2
      · exact List.mem_cons_self _ _
      · exact List.mem_cons_of_mem y (ih.mp (List.mem_filter.mp hx2).1)
    · intro hx
      rcases List.mem_cons.mp hx with rfl | hx2
      · exact List.mem_cons_self _ _
      · by_cases hxy : x = y
        · exact hxy ▸ List.mem_cons_self _ _
        · exact List.mem_cons_of_mem y
            (List.mem_filter.mpr ⟨ih.mpr hx2, by simpa using hxy⟩)

theorem nodup_unique (l : List Str) : (DFM.unique l).Nodup := by
  induction l with
  | nil => simp [DFM.unique]
  | cons y t ih =>
    simp only [DFM.unique, List.nodup_cons]
    refine ⟨fun hmem => ?_, ih.filter _⟩
    simp [List.mem_filter] at hmem

theorem cachePartition_snd_sub (cache : HashCache) (ids : List Str) :
    ∀ x ∈ (DFM.cachePartition cache ids).2, x ∈ ids ∧ cache.get x = none := by
  induction ids with
  | nil => simp [DFM.cachePartition]
  | cons id t ih =>
    intro x hx
    rw [DFM.cachePartition] at hx
    cases hcg : cache.get id with
    | some s =>
      simp only [hcg] at hx
      obtain ⟨hx1, hx2⟩ := ih x hx
      exact ⟨List.mem_cons_of_mem id hx1, hx2⟩
    | none =>
      simp only [hcg] at hx
      rcases List.mem_cons.mp hx with rfl | hx2
      · exact ⟨List.mem_cons_self _ _, hcg⟩
      · obtain ⟨hx1, hx3⟩ := ih x hx2
        exact ⟨List.mem_cons_of_mem id hx1, hx3⟩

theorem cachePartition_miss_mem (cache : HashCache) (ids : List Str) (id : Str)
    (hmem : id ∈ ids) (hmiss : cache.get id = none) :
    id ∈ (DFM.cachePartition cache ids).2 := by
  induction ids with
  | nil => simp at hmem
  | cons y t ih =>
    rw [DFM.cachePartition]
    rcases List.mem_cons.mp hmem with rfl | hm2
    · simp only [hmiss]
      exact List.mem_cons_self _ _
    · cases hcg : cache.get y with
      | some s => simpa [hcg] using ih hm2
      | none => simpa [hcg] using List.mem_cons_of_mem y (ih hm2)

theorem cachePartition_fst_lookup_none (cache : HashCache) (ids : List Str) (id : Str)
    (hmiss : cache.get id = none) :
    lookupA (DFM.cachePartition cache ids).1 id = none := by
  induction ids with
  | nil => simp [DFM.cachePartition, lookupA]
  | cons y t ih =>
    rw [DFM.cachePartition]
    cases hcg : cache.get y with
    | some s =>
      simp only [hcg]
      by_cases hy : id = y
      · exact absurd (hy ▸ hmiss) (by simp [hcg, hy])
      · rw [lookupA_setA_ne _ _ _ _ hy]
        exact ih
    | none => simpa [hcg] using ih

theorem cachePartition_fst_lookup_hit (cache : HashCache) (ids : List Str) (id : Str) (s : Str)
    (hmem : id ∈ ids) (hhit : cache.get id = some s) :
    lookupA (DFM.cachePartition cache ids).1 id = some (DFM.CVal.str s) := by
  induction ids with
  | nil => simp at hmem
  | cons y t ih =>
    rw [DFM.cachePartition]
    by_cases hy : id = y
    · subst hy
      simp only [hhit]
      exact lookupA_setA_same _ _ _
    · rcases List.mem_cons.mp hmem with rfl | hm2
      · exact absurd rfl hy
      · cases hcg : cache.get y with
        | some s2 =>
          simp only [hcg]
          rw [lookupA_setA_ne _ _ _ _ hy]
          exact ih hm2
        | none => simpa [hcg] using ih hm2

theorem processRows_bad_doc_error (opts : DFMOptions) :
    ∀ rows (ret : List (Str × DFM.CVal)) (cache : HashCache),
    (∃ k doc, (k, some doc) ∈ rows ∧
      (¬(doc.dtype = some (lit "leaf")) ∨ doc.data = none)) →
    ∃ e, DFM.processRows opts false rows ret cache = .error e := by
  intro rows
  induction rows with
  | nil =>
    rintro ret cache ⟨k, doc, hmem, -⟩
    exact absurd hmem (List.not_mem_nil _)
  | cons row rest ih =>
    rintro ret cache ⟨k, doc, hmem, hbad⟩
    obtain ⟨k0, v0⟩ := row
    rcases List.mem_cons.mp hmem with heq | hmem2
    · injection heq with hk0 hv0
      subst hk0
      rw [← hv0]
      by_cases hty : doc.dtype = some (lit "leaf")
      · rcases hbad with hbad | hdata
        · exact absurd hty hbad
        · refine ⟨lit "Corrupted chunk found (No data contained) (" ++ k ++ lit ")", ?_⟩
          simp [DFM.processRows, hty, hdata]
      · refine ⟨lit "Corrupted chunk found (Pointed non-chunk object) (" ++ k ++ lit ")", ?_⟩
        simp [DFM.processRows, hty]
    · cases v0 with
      | none =>
        simpa [DFM.processRows] using ih (setA ret k0 (.bool false)) cache ⟨k, doc, hmem2, hbad⟩
      | some d0 =>
        by_cases hty0 : d0.dtype = some (lit "leaf")
        · cases hdata0 : d0.data with
          | none =>
            refine ⟨lit "Corrupted chunk found (No data contained) (" ++ k0 ++ lit ")", ?_⟩
            simp [DFM.processRows, hty0, hdata0]
          | some ds =>
            cases hdec : (if truthyS opts.passphrase then
                decryptStr ds (opts.passphrase.getD []) else .ok ds) with
            | error e =>
              refine ⟨e, ?_⟩
              simp [DFM.processRows, hty0, hdata0, hdec]
            | ok dd =>
              obtain ⟨e, he⟩ := ih (setA ret k0 (.str dd)) (cache.set (some k0) (some dd))
                ⟨k, doc, hmem2, hbad⟩
              refine ⟨e, ?_⟩
              simp [DFM.processRows, hty0, hdata0, hdec, he]
        · refine ⟨lit "Corrupted chunk found (Pointed non-chunk object) (" ++ k0 ++ lit ")", ?_⟩
          simp [DFM.processRows, hty0]

theorem processRows_ok_preserve (opts : DFMOptions) (flag : Bool) (cid : Str) :
    ∀ rows (ret : List (Str × DFM.CVal)) (cache : HashCache) ret2 cache2,
    cid ∉ rows.map (fun r => r.1) →
    DFM.processRows opts flag rows ret cache = .ok (ret2, cache2) →
    lookupA ret2 cid = lookupA ret cid := by
  intro rows
  induction rows with
  | nil =>
    intro ret cache ret2 cache2 _ hok
    rw [DFM.processRows] at hok
    injection hok with h
    injection h with h1 h2
    rw [← h1]
  | cons row rest ih =>
    intro ret cache ret2 cache2 hnot hok
    obtain ⟨k0, v0⟩ := row
    have hk0 : ¬(cid = k0) := by
      intro h
      exact hnot (by simp [h])
    have hrest : cid ∉ rest.map (fun r => r.1) := fun h => hnot (by simp [h])
    cases v0 with
    | none =>
      rw [DFM.processRows] at hok
      rw [ih _ _ _ _ hrest hok, lookupA_setA_ne _ _ _ _ hk0]
    | some d0 =>
      rw [DFM.processRows] at hok
      by_cases hflag : flag = true
      · subst hflag
        simp only [if_true] at hok
        rw [ih _ _ _ _ hrest hok, lookupA_setA_ne _ _ _ _ hk0]
      · rw [Bool.not_eq_true] at hflag
        subst hflag
        simp only [Bool.false_eq_true, if_false] at hok
        by_cases hty0 : d0.dtype = some (lit "leaf")
        · rw [if_neg (by simpa using hty0)] at hok
          cases hdata0 : d0.data with
          | none =>
            simp only [hdata0] at hok
            exact absurd hok (by simp)
          | some ds =>
            simp only [hdata0] at hok
            cases hdec : (if truthyS opts.passphrase then
                decryptStr ds (opts.passphrase.getD []) else .ok ds) with
            | error e =>
              simp only [hdec] at hok
              exact absurd hok (by simp)
            | ok dd =>
              simp only [hdec] at hok
              rw [ih _ _ _ _ hrest hok, lookupA_setA_ne _ _ _ _ hk0]
        · rw [if_pos (by simpa using hty0)] at hok
          exact absurd hok (by simp)

theorem processRows_ok_lookup_false (opts : DFMOptions) (cid : Str) :
    ∀ rows (ret : List (Str × DFM.CVal)) (cache : HashCache) ret2 cache2,
    (rows.map (fun r => r.1)).Nodup →
    (cid, (none : Option StoredDoc)) ∈ rows →
    DFM.processRows opts false rows ret cache = .ok (ret2, cache2) →
    lookupA ret2 cid = some (.bool false) := by
  intro rows
  induction rows with
  | nil =>
    intro ret cache ret2 cache2 _ hmem
    exact absurd hmem (List.not_mem_nil _)
  | cons row rest ih =>
    intro ret cache ret2 cache2 hnd hmem hok
    obtain ⟨k0, v0⟩ := row
    obtain ⟨hk0nd, hndrest⟩ := List.nodup_cons.mp hnd
    rcases List.mem_cons.mp hmem with heq | hmem2
    · injection heq with hk0 hv0
      subst hk0
      rw [← hv0, DFM.processRows] at hok
      have hnotin : cid ∉ rest.map (fun r => r.1) := by simpa using hk0nd
      rw [processRows_ok_preserve opts false cid rest _ _ _ _ hnotin hok]
      exact lookupA_setA_same _ _ _
    · have hk0cid : ¬(cid = k0) := by
        intro h
        subst h
        exact hk0nd (by simpa using List.mem_map_of_mem (fun r => r.1) hmem2)
      cases v0 with
      | none =>
        rw [DFM.processRows] at hok
        exact ih _ _ _ _ hndrest hmem2 hok
      | some d0 =>
        rw [DFM.processRows] at hok
        simp only [Bool.false_eq_true, if_false] at hok
        by_cases hty0 : d0.dtype = some (lit "leaf")
        · rw [if_neg (by simpa using hty0)] at hok
          cases hdata0 : d0.data with
          | none =>
            simp only [hdata0] at hok
            exact absurd hok (by simp)
          | some ds =>
            simp only [hdata0] at hok
            cases hdec : (if truthyS opts.passphrase then
                decryptStr ds (opts.passphrase.getD []) else .ok ds) with
            | error e =>
              simp only [hdec] at hok
              exact absurd hok (by simp)
            | ok dd =>
              simp only [hdec] at hok
              exact ih _ _ _ _ hndrest hmem2 hok
        · rw [if_pos (by simpa using hty0)] at hok
          exact absurd hok (by simp)

theorem collectChunks_rows_keys (cache : HashCache) (ids : List Str) (db : CouchDB) :
    (db.allDocsRows (DFM.unique (DFM.cachePartition cache ids).2)).map (fun r => r.1)
      = DFM.unique (DFM.cachePartition cache ids).2 := by
  rw [CouchDB.allDocsRows, List.map_map]
  exact List.map_id'' (fun _ => rfl) _

theorem collectChunks_ok_lookup_false (opts : DFMOptions) (db : CouchDB) (cache : HashCache)
    (ids : List Str) (cid : Str) (hmiss : cache.get cid = none) (hmem : cid ∈ ids)
    (hdb : db.get cid = none) :
    ∀ ret c2, DFM.collectChunks opts db cache ids false = .ok (ret, c2) →
    lookupA ret cid = some (.bool false) := by
  intro ret c2 hok
  have hcp : cid ∈ (DFM.cachePartition cache ids).2 := cachePartition_miss_mem _ _ _ hmem hmiss
  have hne : ¬((DFM.cachePartition cache ids).2 = []) := by
    intro h
    rw [h] at hcp
    exact List.not_mem_nil _ hcp
  rw [DFM.collectChunks] at hok
  simp only [hne, if_false] at hok
  have hrows : (cid, db.get cid) ∈ db.allDocsRows (DFM.unique (DFM.cachePartition cache ids).2) :=
    List.mem_map_of_mem _ ((mem_unique _ _).mpr hcp)
  rw [hdb] at hrows
  refine processRows_ok_lookup_false opts cid _ _ _ _ _ ?_ hrows hok
  rw [collectChunks_rows_keys]
  exact nodup_unique _

theorem collectChunks_bad_doc_error (opts : DFMOptions) (db : CouchDB) (cache : HashCache)
    (ids : List Str) (cid : Str) (doc : StoredDoc) (hmiss : cache.get cid = none)
    (hmem : cid ∈ ids) (hdb : db.get cid = some doc)
    (hbad : ¬(doc.dtype = some (lit "leaf")) ∨ doc.data = none) :
    ∃ e, DFM.collectChunks opts db cache ids false = .error e := by
  have hcp : cid ∈ (DFM.cachePartition cache ids).2 := cachePartition_miss_mem _ _ _ hmem hmiss
  have hne : ¬((DFM.cachePartition cache ids).2 = []) := by
    intro h
    rw [h] at hcp
    exact List.not_mem_nil _ hcp
  rw [DFM.collectChunks]
  simp only [hne, if_false]
  have hrows : (cid, db.get cid) ∈ db.allDocsRows (DFM.unique (DFM.cachePartition cache ids).2) :=
    List.mem_map_of_mem _ ((mem_unique _ _).mpr hcp)
  rw [hdb] at hrows
  exact processRows_bad_doc_error opts _ _ _ ⟨cid, doc, hrows, hbad⟩

/-- Claim C3: assembling a metadata entry (`getByMeta`, hence `get` without
`metaOnly`) raises a hard integrity error rather than returning partial
content whenever a referenced chunk id (not served from the cache) is
missing on the remote, or resolves to a document that is not a `leaf`, or
resolves to a leaf without a `data` field. -/
theorem C3_missing_chunk_integrity (opts : DFMOptions) (db : CouchDB) (cache : HashCache)
    (d : StoredDoc) (cs : List Str) (cid : Str)
    (hch : d.children = some cs) (hmem : cid ∈ cs) (hmiss : cache.get cid = none) :
    (db.get cid = none → ∃ e, DFM.getByMeta opts db cache d = .error e)
    ∧ (∀ doc, db.get cid = some doc → ¬(doc.dtype = some (lit "leaf")) →
        ∃ e, DFM.getByMeta opts db cache d = .error e)
    ∧ (∀ doc, db.get cid = some doc → doc.dtype = some (lit "leaf") → doc.data = none →
        ∃ e, DFM.getByMeta opts db cache d = .error e) := by
  refine ⟨?_, ?_, ?_⟩
  · intro hdb
    cases hcc : DFM.collectChunks opts db cache cs false with
    | error e =>
      refine ⟨e, ?_⟩
      simp [DFM.getByMeta, hch, hcc]
    | ok pr =>
      obtain ⟨ret, c2⟩ := pr
      have hlook := collectChunks_ok_lookup_false opts db cache cs cid hmiss hmem hdb ret c2 hcc
      have hany : (cs.map (fun e =>
          match lookupA ret e with
          | some v => if v = DFM.CVal.bool false then DFM.CVal.bool false else v
          | none => DFM.CVal.bool false)).any (fun v => v = DFM.CVal.bool false) = true := by
        refine List.any_eq_true.mpr ⟨DFM.CVal.bool false, List.mem_map.mpr ⟨cid, hmem, ?_⟩, by simp⟩
        rw [hlook]
        simp
      refine ⟨lit "Missing chunks: " ++ d.path.getD [] ++ lit "!", ?_⟩
      simp [DFM.getByMeta, hch, hcc, hany]
  · intro doc hdb hty
    obtain ⟨e, he⟩ := collectChunks_bad_doc_error opts db cache cs cid doc hmiss hmem hdb (Or.inl hty)
    refine ⟨e, ?_⟩
    simp [DFM.getByMeta, hch, he]
  · intro doc hdb hty hdata
    obtain ⟨e, he⟩ := collectChunks_bad_doc_error opts db cache cs cid doc hmiss hmem hdb (Or.inr hdata)
    refine ⟨e, ?_⟩
    simp [DFM.getByMeta, hch, he]

/-- Witness for C3: a metadata entry whose single child is absent, a
non-leaf document, or a leaf without data, at concrete states. -/
theorem C3_missing_chunk_integrity_witness :
    (∃ e, DFM.getByMeta {} ⟨[]⟩ HashCache.empty
      { dtype := some (lit "plain"), path := some (lit "a"), children := some [lit "h:x"] }
      = .error e)
    ∧ (∃ e, DFM.getByMeta {} ⟨[(lit "h:x", { dtype := some (lit "plain") })]⟩ HashCache.empty
      { dtype := some (lit "plain"), path := some (lit "a"), children := some [lit "h:x"] }
      = .error e)
    ∧ (∃ e, DFM.getByMeta {} ⟨[(lit "h:x", { dtype := some (lit "leaf") })]⟩ HashCache.empty
      { dtype := some (lit "plain"), path := some (lit "a"), children := some [lit "h:x"] }
      = .error e) := by
  refine ⟨?_, ?_, ?_⟩
  · exact (C3_missing_chunk_integrity {} ⟨[]⟩ HashCache.empty
      { dtype := some (lit "plain"), path := some (lit "a"), children := some [lit "h:x"] }
      [lit "h:x"] (lit "h:x") rfl (List.mem_cons_self _ _) rfl).1 (by decide)
  · exact (C3_missing_chunk_integrity {} ⟨[(lit "h:x", { dtype := some (lit "plain") })]⟩
      HashCache.empty
      { dtype := some (lit "plain"), path := some (lit "a"), children := some [lit "h:x"] }
      [lit "h:x"] (lit "h:x") rfl (List.mem_cons_self _ _) rfl).2.1
      { dtype := some (lit "plain") } (by decide) (by decide)
  · exact (C3_missing_chunk_integrity {} ⟨[(lit "h:x", { dtype := some (lit "leaf") })]⟩
      HashCache.empty
      { dtype := some (lit "plain"), path := some (lit "a"), children := some [lit "h:x"] }
      [lit "h:x"] (lit "h:x") rfl (List.mem_cons_self _ _) rfl).2.2
      { dtype := some (lit "leaf") } (by decide) (by decide) (by decide)

theorem CouchDB.get_store_same (db : CouchDB) (id : Str) (d : StoredDoc) :
    (db.store id d).get id = some d := by
  unfold CouchDB.get CouchDB.store
  exact lookupA_setA_same _ _ _

theorem CouchDB.get_store_ne (db : CouchDB) (id id2 : Str) (d : StoredDoc)
    (hne : ¬(id2 = id)) : (db.store id d).get id2 = db.get id2 := by
  unfold CouchDB.get CouchDB.store
  exact lookupA_setA_ne _ _ _ _ hne

theorem decryptDocumentPath_ok_eq (opts : DFMOptions) (d d2 : StoredDoc)
    (hok : DFM.decryptDocumentPath opts d = .ok d2) : ∃ p2, d2 = { d with path := p2 } := by
  unfold DFM.decryptDocumentPath at hok
  by_cases ht : truthyS opts.passphrase = true
  · rw [if_pos ht] at hok
    cases hp : d.path with
    | none =>
      simp only [hp] at hok
      exact absurd hok (by simp)
    | some p =>
      simp only [hp] at hok
      cases hd : decryptStr p (opts.passphrase.getD []) with
      | error e =>
        simp only [hd] at hok
        exact absurd hok (by simp)
      | ok q =>
        simp only [hd] at hok
        refine ⟨some q, ?_⟩
        injection hok with h
        exact h.symm
  · rw [Bool.not_eq_true] at ht
    rw [ht] at hok
    simp only [Bool.false_eq_true, if_false] at hok
    injection hok with h
    exact ⟨d.path, h.symm⟩

theorem encryptDocumentPath_eq (opts : DFMOptions) (d : StoredDoc) :
    ∃ p2, DFM.encryptDocumentPath opts d = { d with path := p2 } := by
  unfold DFM.encryptDocumentPath
  by_cases ht : truthyS opts.obfuscatePassphrase = true
  · rw [if_pos ht]
    exact ⟨_, rfl⟩
  · rw [Bool.not_eq_true] at ht
    rw [ht]
    simp only [Bool.false_eq_true, if_false]
    exact ⟨d.path, rfl⟩

/-- Claim C5: `delete(path)` returns success without writing when the path
is absent (no document, or a document that is not a metadata entry) or the
entry is already deleted; when a live entry is present (readable path,
truthy `_rev`), it writes a new revision carrying `deleted=true`, `size=0`,
`children=[]`, the prior `ctime`, `mtime = now`, attached to the prior
`_rev` (so the stored revision advances by one). -/
theorem C5_delete_idempotence (h : Str → Nat) (opts : DFMOptions) (st : DBState)
    (path : Str) (now : Int) :
    (st.db.get (DFM.path2id h opts path) = none →
      DFM.delete h opts st path now = .ok (true, st))
    ∧ (∀ d, st.db.get (DFM.path2id h opts path) = some d → ¬(DFM.isMetaType d = true) →
      DFM.delete h opts st path now = .ok (true, st))
    ∧ (∀ d d2, st.db.get (DFM.path2id h opts path) = some d → DFM.isMetaType d = true →
      DFM.decryptDocumentPath opts d = .ok d2 → d2.deleted = some true →
      DFM.delete h opts st path now = .ok (true, st))
    ∧ (∀ d d2, st.db.get (DFM.path2id h opts path) = some d → DFM.isMetaType d = true →
      DFM.decryptDocumentPath opts d = .ok d2 → ¬(d2.deleted = some true) → ¬(d2.rev = 0) →
      ∃ nd, DFM.delete h opts st path now
          = .ok (true, ⟨st.db.store (DFM.path2id h opts path) nd, st.cache⟩)
        ∧ nd.deleted = some true ∧ nd.size = some 0 ∧ nd.children = some []
        ∧ nd.ctime = d2.ctime ∧ nd.mtime = some now ∧ nd.rev = d2.rev + 1) := by
  refine ⟨?_, ?_, ?_, ?_⟩
  · intro hdb
    simp [DFM.delete, DFM.getById, hdb]
  · intro d hdb hty
    simp [DFM.delete, DFM.getById, hdb, hty]
  · intro d d2 hdb hty hdec hdel
    have hrev : d2.rev = d.rev := by
      obtain ⟨p2, rfl⟩ := decryptDocumentPath_ok_eq opts d d2 hdec
      rfl
    by_cases hr0 : d2.rev = 0
    · simp [DFM.delete, DFM.getById, hdb, hty, hdec, DFM.deleteCore, hr0]
    · simp [DFM.delete, DFM.getById, hdb, hty, hdec, DFM.deleteCore, hr0, hdel]
  · intro d d2 hdb hty hdec hdel hr0
    have hrev : d2.rev = d.rev := by
      obtain ⟨p2, rfl⟩ := decryptDocumentPath_ok_eq opts d d2 hdec
      rfl
    obtain ⟨p3, henc⟩ := encryptDocumentPath_eq opts
      { path := d2.path, children := some [], ctime := d2.ctime, mtime := some now,
        size := some 0, dtype := d2.dtype, deleted := some true, data := d2.data }
    refine ⟨⟨d2.rev + 1, d2.dtype, d2.data, p3, some [], d2.ctime, some now, some 0,
      some true⟩, ?_, rfl, rfl, rfl, rfl, rfl, rfl⟩
    simp only [DFM.delete, DFM.getById, hdb, hty, Bool.not_eq_true, not_true,
      Bool.false_eq_true, if_false, decide_eq_true_eq, if_true, hdec, DFM.deleteCore,
      hr0, hdel, if_false, henc, CouchDB.putDoc, hrev]
    simp only [CouchDB.putDoc, hdb, hrev, CouchDB.store]
    simp [CouchDB.store]
    intro h0
    exact absurd (hrev.trans h0) hr0

/-- Witness for C5: deleting an absent path, an already-deleted entry, and
a live entry, at concrete states. -/
theorem C5_delete_idempotence_witness :
    DFM.delete (fun s => s.length) {} DBState.empty (lit "a.md") 99 = .ok (true, DBState.empty)
    ∧ DFM.delete (fun s => s.length) {}
        ⟨⟨[(lit "a.md", ⟨1, some (lit "plain"), none, some (lit "a.md"), some [lit "h:z"],
          some 5, some 6, some 13, some true⟩)]⟩, HashCache.empty⟩ (lit "a.md") 99
      = .ok (true, ⟨⟨[(lit "a.md", ⟨1, some (lit "plain"), none, some (lit "a.md"),
          some [lit "h:z"], some 5, some 6, some 13, some true⟩)]⟩, HashCache.empty⟩)
    ∧ (∃ nd, DFM.delete (fun s => s.length) {}
        ⟨⟨[(lit "a.md", ⟨1, some (lit "plain"), none, some (lit "a.md"), some [lit "h:z"],
          some 5, some 6, some 13, none⟩)]⟩, HashCache.empty⟩ (lit "a.md") 99
      = .ok (true, ⟨CouchDB.store ⟨[(lit "a.md", ⟨1, some (lit "plain"), none, some (lit "a.md"),
          some [lit "h:z"], some 5, some 6, some 13, none⟩)]⟩
            (DFM.path2id (fun s => s.length) {} (lit "a.md")) nd, HashCache.empty⟩)
      ∧ nd.deleted = some true ∧ nd.size = some 0 ∧ nd.children = some []
      ∧ nd.ctime = some 5 ∧ nd.mtime = some 99 ∧ nd.rev = 2) := by
  refine ⟨(C5_delete_idempotence (fun s => s.length) {} DBState.empty (lit "a.md") 99).1
      (by decide), ?_, ?_⟩
  · exact (C5_delete_idempotence (fun s => s.length) {}
      ⟨⟨[(lit "a.md", ⟨1, some (lit "plain"), none, some (lit "a.md"), some [lit "h:z"],
        some 5, some 6, some 13, some true⟩)]⟩, HashCache.empty⟩ (lit "a.md") 99).2.2.1
      ⟨1, some (lit "plain"), none, some (lit "a.md"), some [lit "h:z"],
        some 5, some 6, some 13, some true⟩
      ⟨1, some (lit "plain"), none, some (lit "a.md"), some [lit "h:z"],
        some 5, some 6, some 13, some true⟩
      (by decide) (by decide) (by decide) (by decide)
  · obtain ⟨nd, h1, h2, h3, h4, h5, h6, h7⟩ := (C5_delete_idempotence (fun s => s.length) {}
      ⟨⟨[(lit "a.md", ⟨1, some (lit "plain"), none, some (lit "a.md"), some [lit "h:z"],
        some 5, some 6, some 13, none⟩)]⟩, HashCache.empty⟩ (lit "a.md") 99).2.2.2
      ⟨1, some (lit "plain"), none, some (lit "a.md"), some [lit "h:z"],
        some 5, some 6, some 13, none⟩
      ⟨1, some (lit "plain"), none, some (lit "a.md"), some [lit "h:z"],
        some 5, some 6, some 13, none⟩
      (by decide) (by decide) (by decide) (by decide) (by decide)
    exact ⟨nd, h1, h2, h3, h4, h5, h6, h7⟩

theorem ne_append_encPre_self (pass p : Str) : ¬(encPre pass ++ p = p) := by
  intro h
  have hl := congrArg List.length h
  rw [List.length_append] at hl
  have := encPre_length_pos pass
  omega

theorem encPre_inj (a b : Str) (h : encPre a = encPre b) : a = b := by
  unfold encPre at h
  rw [List.append_assoc, List.append_assoc] at h
  have h2 := List.append_cancel_left h
  have hl := congrArg List.length h2
  rw [List.length_append, List.length_append] at hl
  exact (List.append_inj h2 (by omega)).1

/-- Claim C10: `encryptDocumentPath` encrypts the path under
`options.obfuscatePassphrase` (unchanged when that option is unset/falsy),
`decryptDocumentPath` decrypts under `options.passphrase` (unchanged when
unset/falsy), and the round trip restores the path exactly when both
options are unset or hold the same passphrase. -/
theorem C10_path_key_asymmetry (opts : DFMOptions) (d : StoredDoc) (p : Str)
    (hp : d.path = some p) :
    ((DFM.encryptDocumentPath opts d).path =
      if truthyS opts.obfuscatePassphrase then
        some (encryptStr p (opts.obfuscatePassphrase.getD [])) else some p)
    ∧ (truthyS opts.passphrase = false → DFM.decryptDocumentPath opts d = .ok d)
    ∧ ((∃ d2, DFM.decryptDocumentPath opts (DFM.encryptDocumentPath opts d) = .ok d2
          ∧ d2.path = some p)
        ↔ ((truthyS opts.obfuscatePassphrase = false ∧ truthyS opts.passphrase = false)
          ∨ (truthyS opts.obfuscatePassphrase = true
            ∧ opts.obfuscatePassphrase = opts.passphrase))) := by
  have hencTrue : truthyS opts.obfuscatePassphrase = true →
      DFM.encryptDocumentPath opts d
        = { d with path := some (encryptStr p (opts.obfuscatePassphrase.getD [])) } := by
    intro ht
    unfold DFM.encryptDocumentPath
    rw [if_pos ht, hp]
    rfl
  have hencFalse : truthyS opts.obfuscatePassphrase = false →
      DFM.encryptDocumentPath opts d = d := by
    intro hf
    unfold DFM.encryptDocumentPath
    rw [hf]
    simp
  have hdecFalse : ∀ d0 : StoredDoc, truthyS opts.passphrase = false →
      DFM.decryptDocumentPath opts d0 = .ok d0 := by
    intro d0 hf
    unfold DFM.decryptDocumentPath
    rw [hf]
    simp
  refine ⟨?_, hdecFalse d, ?_⟩
  · by_cases ht : truthyS opts.obfuscatePassphrase = true
    · rw [hencTrue ht, ht, if_pos rfl]
    · rw [Bool.not_eq_true] at ht
      rw [hencFalse ht, ht, hp]
      simp
  · constructor
    · rintro ⟨d2, hdec, hd2p⟩
      by_cases hobf : truthyS opts.obfuscatePassphrase = true
      · rw [hencTrue hobf] at hdec
        by_cases hpass : truthyS opts.passphrase = true
        · refine Or.inr ⟨hobf, ?_⟩
          unfold DFM.decryptDocumentPath at hdec
          rw [if_pos hpass] at hdec
          simp only [] at hdec
          cases hds : decryptStr (encryptStr p (opts.obfuscatePassphrase.getD []))
              (opts.passphrase.getD []) with
          | error e =>
            rw [hds] at hdec
            exact absurd hdec (by simp)
          | ok q =>
            rw [hds] at hdec
            injection hdec with h2
            rw [← h2] at hd2p
            simp only [] at hd2p
            injection hd2p with hq
            subst hq
            have hco := decryptStr_ok _ _ _ hds
            unfold encryptStr at hco
            have hl := congrArg List.length hco
            rw [List.length_append, List.length_append] at hl
            have heq := (List.append_inj hco (by omega)).1
            have hpw := encPre_inj _ _ heq
            cases hobf2 : opts.obfuscatePassphrase with
            | none => rw [hobf2] at hobf; simp [truthyS] at hobf
            | some s =>
              cases hpass2 : opts.passphrase with
              | none => rw [hpass2] at hpass; simp [truthyS] at hpass
              | some s2 =>
                rw [hobf2, hpass2] at hpw
                simp only [Option.getD_some] at hpw
                rw [hpw]
        · rw [Bool.not_eq_true] at hpass
          rw [hdecFalse _ hpass] at hdec
          injection hdec with h2
          rw [← h2] at hd2p
          simp only [] at hd2p
          injection hd2p with hq
          unfold encryptStr at hq
          exact absurd hq (ne_append_encPre_self _ _)
      · rw [Bool.not_eq_true] at hobf
        rw [hencFalse hobf] at hdec
        by_cases hpass : truthyS opts.passphrase = true
        · unfold DFM.decryptDocumentPath at hdec
          rw [if_pos hpass, hp] at hdec
          simp only [] at hdec
          cases hds : decryptStr p (opts.passphrase.getD []) with
          | error e =>
            rw [hds] at hdec
            exact absurd hdec (by simp)
          | ok q =>
            rw [hds] at hdec
            injection hdec with h2
            rw [← h2] at hd2p
            simp only [] at hd2p
            injection hd2p with hq
            subst hq
            exact absurd (decryptStr_ok _ _ _ hds) (fun hh => ne_append_encPre_self _ _ hh.symm)
        · rw [Bool.not_eq_true] at hpass
          exact Or.inl ⟨hobf, hpass⟩
    · rintro (⟨hobf, hpass⟩ | ⟨hobf, hsame⟩)
      · rw [hencFalse hobf, hdecFalse d hpass]
        exact ⟨d, rfl, hp⟩
      · have hpass : truthyS opts.passphrase = true := by rw [← hsame]; exact hobf
        rw [hencTrue hobf]
        unfold DFM.decryptDocumentPath
        rw [if_pos hpass]
        simp only []
        rw [hsame]
        rw [decryptStr_encryptStr]
        exact ⟨_, rfl, rfl⟩

/-- Witness for C10: with matching passphrases the round trip restores the
path; with a mismatched pair the decryption of the stored path fails. -/
theorem C10_path_key_asymmetry_witness :
    (∃ d2, DFM.decryptDocumentPath
        { passphrase := some (lit "p"), obfuscatePassphrase := some (lit "p") }
        (DFM.encryptDocumentPath
          { passphrase := some (lit "p"), obfuscatePassphrase := some (lit "p") }
          { path := some (lit "a.md") }) = .ok d2 ∧ d2.path = some (lit "a.md"))
    ∧ DFM.decryptDocumentPath
        { passphrase := some (lit "p"), obfuscatePassphrase := some (lit "o") }
        (DFM.encryptDocumentPath
          { passphrase := some (lit "p"), obfuscatePassphrase := some (lit "o") }
          { path := some (lit "a.md") }) = .error (lit "DecryptError") := by
  refine ⟨(C10_path_key_asymmetry
      { passphrase := some (lit "p"), obfuscatePassphrase := some (lit "p") }
      { path := some (lit "a.md") } (lit "a.md") rfl).2.2.mpr
      (Or.inr ⟨by decide, rfl⟩), by decide⟩

theorem mem_of_getLastSome {α : Type} (l : List α) (x : α) (h : l.getLast? = some x) :
    x ∈ l := by
  obtain ⟨ys, rfl⟩ := List.getLast?_eq_some_iff.mp h
  simp

theorem sorted_key_getLast_max {α β : Type} [LinearOrder β] (f : α → β) :
    ∀ (l : List α), List.Pairwise (fun a b => f a < f b) l →
    ∀ x, l.getLast? = some x → ∀ a ∈ l, f a ≤ f x := by
  intro l
  induction l with
  | nil => intro _ x hx; simp at hx
  | cons c t ih =>
    intro hs x hx a ha
    cases t with
    | nil =>
      simp only [List.getLast?_singleton, Option.some.injEq] at hx
      rcases List.mem_cons.mp ha with rfl | h
      · rw [hx]
      · exact absurd h (List.not_mem_nil _)
    | cons y t2 =>
      rw [List.getLast?_cons_cons] at hx
      have hmem : x ∈ y :: t2 := mem_of_getLastSome _ _ hx
      rcases List.mem_cons.mp ha with rfl | h
      · exact le_of_lt ((List.pairwise_cons.mp hs).1 x hmem)
      · exact ih (List.pairwise_cons.mp hs).2 x hx a h

theorem filter_gt_append {α β : Type} [LinearOrder β] (f : α → β) (t d : List α) (x : α)
    (hx : x ∈ t) (hmax : ∀ a ∈ t, f a ≤ f x)
    (hs : List.Pairwise (fun a b => f a < f b) (t ++ d)) :
    (t ++ d).filter (fun a => decide (f x < f a)) = d := by
  obtain ⟨hst, hsd, hcross⟩ := List.pairwise_append.mp hs
  rw [List.filter_append]
  have h1 : t.filter (fun a => decide (f x < f a)) = [] := by
    rw [List.filter_eq_nil_iff]
    intro a ha
    simp only [decide_eq_true_eq, not_lt]
    exact hmax a ha
  have h2 : d.filter (fun a => decide (f x < f a)) = d := by
    rw [List.filter_eq_self]
    intro b hb
    simp only [decide_eq_true_eq]
    exact hcross x hx b hb
  rw [h1, h2, List.nil_append]

theorem foldl_const_last {α : Type} (g : α → Nat) :
    ∀ (l : List α) (s0 : Nat), l.foldl (fun _ c => g c) s0
      = (match l.getLast? with | some c => g c | none => s0) := by
  intro l
  induction l with
  | nil => intro s0; rfl
  | cons x t ih =>
    intro s0
    rw [List.foldl_cons, ih (g x)]
    cases t with
    | nil => rfl
    | cons y t2 =>
      rw [List.getLast?_cons_cons]
      cases hgl : (y :: t2).getLast? with
      | none =>
        rw [List.getLast?_eq_none_iff] at hgl
        exact absurd hgl (List.cons_ne_nil _ _)
      | some c => rfl

theorem followUpdatesGo_spec (feed : List ChangeRow)
    (hs : List.Pairwise (fun a b => a.seq < b.seq) feed) :
    ∀ (fuel : Nat) (s0 : Nat),
    (feed.filter (fun c => decide (s0 < c.seq))).length + 1 ≤ fuel →
    (followUpdatesGo feed fuel s0).2
        = (feed.filter (fun c => decide (s0 < c.seq))).map (fun c => c.seq)
    ∧ ((followUpdatesGo feed fuel s0).2 = [] → (followUpdatesGo feed fuel s0).1 = s0)
    ∧ ((followUpdatesGo feed fuel s0).2 ≠ [] →
        (followUpdatesGo feed fuel s0).2.getLast? = some (followUpdatesGo feed fuel s0).1) := by
  intro fuel
  induction fuel with
  | zero => intro s0 hf; omega
  | succ fl ih =>
    intro s0 hf
    by_cases hp : 0 < (feed.filter (fun c => decide (s0 < c.seq))).length - 25
    · have hR : 25 < (feed.filter (fun c => decide (s0 < c.seq))).length := by omega
      have htlen : ((feed.filter (fun c => decide (s0 < c.seq))).take 25).length = 25 := by
        rw [List.length_take]
        omega
      have htne : (feed.filter (fun c => decide (s0 < c.seq))).take 25 ≠ [] := by
        intro h
        rw [h] at htlen
        simp at htlen
      obtain ⟨lastv, hlast⟩ : ∃ lastv,
          ((feed.filter (fun c => decide (s0 < c.seq))).take 25).getLast? = some lastv := by
        cases hgl : ((feed.filter (fun c => decide (s0 < c.seq))).take 25).getLast? with
        | none =>
          rw [List.getLast?_eq_none_iff] at hgl
          exact absurd hgl htne
        | some c => exact ⟨c, rfl⟩
      have hsR : List.Pairwise (fun a b : ChangeRow => a.seq < b.seq)
          (feed.filter (fun c => decide (s0 < c.seq))) := hs.filter _
      have hlmem : lastv ∈ (feed.filter (fun c => decide (s0 < c.seq))).take 25 :=
        mem_of_getLastSome _ _ hlast
      have hs0last : s0 < lastv.seq := by
        have : lastv ∈ feed.filter (fun c => decide (s0 < c.seq)) :=
          (List.take_sublist _ _).mem hlmem
        simpa using (List.mem_filter.mp this).2
      have hkey : feed.filter (fun c => decide (lastv.seq < c.seq))
          = (feed.filter (fun c => decide (s0 < c.seq))).drop 25 := by
        have hstep1 : feed.filter (fun c => decide (lastv.seq < c.seq))
            = (feed.filter (fun c => decide (s0 < c.seq))).filter
                (fun c => decide (lastv.seq < c.seq)) := by
          rw [List.filter_filter]
          refine (List.filter_congr ?_).symm
          intro c _
          by_cases h2 : lastv.seq < c.seq
          · simp [h2, lt_trans hs0last h2]
          · simp [h2]
        have hmax : ∀ a ∈ (feed.filter (fun c => decide (s0 < c.seq))).take 25,
            a.seq ≤ lastv.seq :=
          sorted_key_getLast_max (fun c : ChangeRow => c.seq) _
            (hsR.sublist (List.take_sublist _ _)) lastv hlast
        have happ := filter_gt_append (fun c : ChangeRow => c.seq)
          ((feed.filter (fun c => decide (s0 < c.seq))).take 25)
          ((feed.filter (fun c => decide (s0 < c.seq))).drop 25)
          lastv hlmem hmax
          (by rw [List.take_append_drop]; exact hsR)
        rw [List.take_append_drop] at happ
        rw [hstep1, happ]
      have hs2 : ((feed.filter (fun c => decide (s0 < c.seq))).take 25).foldl
          (fun _ c => c.seq) s0 = lastv.seq := by
        rw [foldl_const_last, hlast]
      have hfuel2 : (feed.filter (fun c => decide (lastv.seq < c.seq))).length + 1 ≤ fl := by
        rw [hkey, List.length_drop]
        omega
      obtain ⟨iha, ihb, ihc⟩ := ih lastv.seq hfuel2
      have hdropne : (feed.filter (fun c => decide (s0 < c.seq))).drop 25 ≠ [] := by
        intro h
        have := congrArg List.length h
        rw [List.length_drop] at this
        simp at this
        omega
      have hpsne : (followUpdatesGo feed fl lastv.seq).2 ≠ [] := by
        rw [iha, hkey]
        intro h
        exact hdropne (List.map_eq_nil_iff.mp h)
      have hunf : followUpdatesGo feed (fl + 1) s0
          = ((followUpdatesGo feed fl lastv.seq).1,
            ((feed.filter (fun c => decide (s0 < c.seq))).take 25).map (fun c => c.seq)
              ++ (followUpdatesGo feed fl lastv.seq).2) := by
        rw [followUpdatesGo]
        simp only [changesNormal, hs2]
        rw [if_pos hp]
      refine ⟨?_, ?_, ?_⟩
      · rw [hunf]
        simp only []
        rw [iha, hkey, ← List.map_append, List.take_append_drop]
      · intro hnil
        rw [hunf] at hnil
        simp only [] at hnil
        have := congrArg List.length hnil
        rw [List.length_append, List.length_map, htlen] at this
        simp at this
      · intro _
        rw [hunf]
        simp only []
        rw [List.getLast?_append, ihc hpsne]
        rfl
    · have hR : (feed.filter (fun c => decide (s0 < c.seq))).length ≤ 25 := by omega
      have htake : (feed.filter (fun c => decide (s0 < c.seq))).take 25
          = feed.filter (fun c => decide (s0 < c.seq)) := List.take_all_of_le hR
      have hunf : followUpdatesGo feed (fl + 1) s0
          = ((feed.filter (fun c => decide (s0 < c.seq))).foldl (fun _ c => c.seq) s0,
            (feed.filter (fun c => decide (s0 < c.seq))).map (fun c => c.seq)) := by
        rw [followUpdatesGo]
        simp only [changesNormal, htake]
        rw [if_neg hp]
      refine ⟨by rw [hunf], ?_, ?_⟩
      · intro hnil
        rw [hunf] at hnil ⊢
        simp only [] at hnil ⊢
        have hRnil : feed.filter (fun c => decide (s0 < c.seq)) = [] :=
          List.map_eq_nil_iff.mp hnil
        rw [foldl_const_last, hRnil]
        rfl
      · intro hne
        rw [hunf] at hne ⊢
        simp only [] at hne ⊢
        have hRne : feed.filter (fun c => decide (s0 < c.seq)) ≠ [] := by
          intro h
          rw [h] at hne
          simp at hne
        obtain ⟨lastv, hlast⟩ : ∃ lastv,
            (feed.filter (fun c => decide (s0 < c.seq))).getLast? = some lastv := by
          cases hgl : (feed.filter (fun c => decide (s0 < c.seq))).getLast? with
          | none =>
            rw [List.getLast?_eq_none_iff] at hgl
            exact absurd hgl hRne
          | some c => exact ⟨c, rfl⟩
        rw [foldl_const_last, hlast, List.getLast?_map, hlast]
        rfl

/-- Claim C8: `followUpdates` pages the normal feed (`limit=25`, repeating
while `pending > 0`), advancing `since` to each result's `seq` in order.
With the feed ordered by `seq` (as CouchDB delivers it), the processed
`seq` values are exactly the feed entries past the initial cursor, in
non-decreasing (strictly increasing) order, and the returned `since` is the
last — hence the maximum — `seq` processed (unchanged when nothing is
pending past the cursor). -/
theorem C8_followUpdates_contract (feed : List ChangeRow) (fuel s0 : Nat)
    (hs : List.Pairwise (fun a b => a.seq < b.seq) feed)
    (hfuel : (feed.filter (fun c => decide (s0 < c.seq))).length + 1 ≤ fuel) :
    (followUpdates fuel feed s0).2
      = (feed.filter (fun c => decide (s0 < c.seq))).map (fun c => c.seq)
    ∧ List.Pairwise (fun a b : Nat => a < b) (followUpdates fuel feed s0).2
    ∧ ((followUpdates fuel feed s0).2 = [] → (followUpdates fuel feed s0).1 = s0)
    ∧ ((followUpdates fuel feed s0).2 ≠ [] →
        (followUpdates fuel feed s0).2.getLast? = some (followUpdates fuel feed s0).1
        ∧ ∀ x ∈ (followUpdates fuel feed s0).2, x ≤ (followUpdates fuel feed s0).1) := by
  obtain ⟨ha, hb, hc⟩ := followUpdatesGo_spec feed hs fuel s0 hfuel
  have hsorted : List.Pairwise (fun a b : Nat => a < b) (followUpdatesGo feed fuel s0).2 := by
    rw [ha]
    exact List.pairwise_map.mpr (hs.filter _)
  refine ⟨ha, hsorted, hb, fun hne => ⟨hc hne, ?_⟩⟩
  intro x hx
  exact sorted_key_getLast_max (fun n : Nat => n) _ hsorted _ (hc hne) x hx

/-- Witness for C8: a three-entry feed from cursor 0 and from cursor 2. -/
theorem C8_followUpdates_contract_witness :
    (followUpdates 10 [⟨1⟩, ⟨2⟩, ⟨3⟩] 0).2 = [1, 2, 3]
    ∧ (followUpdates 10 [⟨1⟩, ⟨2⟩, ⟨3⟩] 0).2.getLast?
        = some (followUpdates 10 [⟨1⟩, ⟨2⟩, ⟨3⟩] 0).1
    ∧ (followUpdates 10 [⟨1⟩, ⟨2⟩, ⟨3⟩] 2).2 = [3] := by
  obtain ⟨ha, -, -, hd⟩ := C8_followUpdates_contract [⟨1⟩, ⟨2⟩, ⟨3⟩] 10 0
    (by decide) (by decide)
  obtain ⟨ha2, -, -, -⟩ := C8_followUpdates_contract [⟨1⟩, ⟨2⟩, ⟨3⟩] 10 2
    (by decide) (by decide)
  refine ⟨ha.trans (by decide), ?_, ha2.trans (by decide)⟩
  exact (hd (by rw [ha]; decide)).1

theorem char_toNat_lt_maxval (c : Char) : c.toNat < 0x110000 := by
  have he : c.toNat = c.val.toNat := rfl
  rcases c.valid with h | ⟨h1, h2⟩
  · omega
  · omega

theorem char_lt_maxChar (c : Char) (h : ¬(c = maxChar)) : c < maxChar := by
  rcases lt_or_gt_of_ne h with hlt | hgt
  · exact hlt
  · exfalso
    have hgt2 : maxChar < c := hgt
    rw [Char.lt_def] at hgt2
    have h3 : maxChar.val.toNat < c.val.toNat := hgt2
    have hmax : maxChar.val.toNat = 0x10FFFF := by decide
    have he : c.toNat = c.val.toNat := rfl
    have hv := char_toNat_lt_maxval c
    omega

theorem str_lt_append (l : Str) (s : Str) (hne : ¬(s = [])) : l < l ++ s := by
  induction l with
  | nil =>
    cases s with
    | nil => exact absurd rfl hne
    | cons c t => exact List.nil_lt_cons c t
  | cons c l2 ih =>
    show List.Lex (· < ·) (c :: l2) (c :: (l2 ++ s))
    exact List.Lex.cons ih

theorem str_append_lt_append (l : Str) (s t : Str) (h : s < t) : l ++ s < l ++ t := by
  induction l with
  | nil => exact h
  | cons c l2 ih =>
    show List.Lex (· < ·) (c :: (l2 ++ s)) (c :: (l2 ++ t))
    exact List.Lex.cons ih

theorem str_head_lt (c : Char) (s2 t : Str) (d : Char) (hcd : c < d) :
    (c :: s2) < (d :: t) := List.Lex.rel hcd

/-- Claim C7 as frozen is refuted at two concrete ids: the endpoints of the
`_all_docs` ranges are inclusive, so the id `"h:"` itself (which has prefix
`"h:"`) lies in the first range, and the id `"i:a"` (a non-chunk id) lies in
none of the five ranges. -/
theorem C7_enumeration_ranges_counterexample :
    (lit "", lit "h:") ∈ enumRanges
    ∧ inRange (lit "h:") (lit "", lit "h:")
    ∧ startsWith PREFIX_CHUNK (lit "h:") = true
    ∧ (∀ r ∈ enumRanges, ¬ inRange (lit "i:a") r)
    ∧ startsWith PREFIX_CHUNK (lit "i:a") = false := by
  refine ⟨by decide, by decide, by decide, by decide, by decide⟩

theorem range_disjoint_of_lt (r1 r2 : Str × Str) (h : r1.2 < r2.1) (id : Str) :
    ¬(inRange id r1 ∧ inRange id r2) := by
  rintro ⟨⟨-, h1⟩, h2, -⟩
  exact absurd (le_trans h2 h1) (not_le.mpr h)

theorem enumRanges_pairwise_disjoint :
    List.Pairwise (fun r1 r2 => ∀ id : Str, ¬(inRange id r1 ∧ inRange id r2)) enumRanges := by
  unfold enumRanges
  refine List.Pairwise.cons ?_ (List.Pairwise.cons ?_ (List.Pairwise.cons ?_
    (List.Pairwise.cons ?_ (List.Pairwise.cons ?_ List.Pairwise.nil))))
  all_goals intro r hr
  all_goals fin_cases hr
  all_goals exact range_disjoint_of_lt _ _ (by decide)

theorem enumRanges_exclude_chunk_ids (s : Str) (hne : ¬(s = []))
    (hhead : ∀ c s2, s = c :: s2 → ¬(c = maxChar)) :
    ∀ r ∈ enumRanges, ¬ inRange (lit "h:" ++ s) r := by
  have hlt1 : lit "h:" < lit "h:" ++ s := str_lt_append _ _ hne
  have hlt2 : lit "h:" ++ s < lit "h:" ++ [maxChar] := by
    refine str_append_lt_append _ _ _ ?_
    cases s with
    | nil => exact absurd rfl hne
    | cons c s2 => exact str_head_lt c s2 [] maxChar (char_lt_maxChar c (hhead c s2 rfl))
  intro r hr
  fin_cases hr
  · rintro ⟨-, h⟩
    exact absurd h (not_le.mpr hlt1)
  · rintro ⟨h, -⟩
    exact absurd h (not_le.mpr hlt2)
  · rintro ⟨h, -⟩
    exact absurd h (not_le.mpr (lt_of_lt_of_le hlt2 (by decide)))
  · rintro ⟨h, -⟩
    exact absurd h (not_le.mpr (lt_of_lt_of_le hlt2 (by decide)))
  · rintro ⟨h, -⟩
    exact absurd h (not_le.mpr (lt_of_lt_of_le hlt2 (by decide)))

theorem enumRanges_cover (id : Str) (hle : id ≤ [maxChar])
    (hgaps : ∀ p ∈ [lit "h:", lit "i:", lit "ix:", lit "ps:"],
      ¬(p < id ∧ id < p ++ [maxChar])) :
    ∃ r ∈ enumRanges, inRange id r := by
  have h0 : lit "" ≤ id := List.nil_le
  by_cases h1 : id ≤ lit "h:"
  · exact ⟨(lit "", lit "h:"), by decide, h0, h1⟩
  · have hstart2 : lit "h:" ++ [maxChar] ≤ id := by
      by_contra hcon
      rw [not_le] at hcon
      exact hgaps (lit "h:") (by decide) ⟨not_le.mp h1, hcon⟩
    by_cases h2 : id ≤ lit "i:"
    · exact ⟨(lit "h:" ++ [maxChar], lit "i:"), by decide, hstart2, h2⟩
    · have hstart3 : lit "i:" ++ [maxChar] ≤ id := by
        by_contra hcon
        rw [not_le] at hcon
        exact hgaps (lit "i:") (by decide) ⟨not_le.mp h2, hcon⟩
      by_cases h3 : id ≤ lit "ix:"
      · exact ⟨(lit "i:" ++ [maxChar], lit "ix:"), by decide, hstart3, h3⟩
      · have hstart4 : lit "ix:" ++ [maxChar] ≤ id := by
          by_contra hcon
          rw [not_le] at hcon
          exact hgaps (lit "ix:") (by decide) ⟨not_le.mp h3, hcon⟩
        by_cases h4 : id ≤ lit "ps:"
        · exact ⟨(lit "ix:" ++ [maxChar], lit "ps:"), by decide, hstart4, h4⟩
        · have hstart5 : lit "ps:" ++ [maxChar] ≤ id := by
            by_contra hcon
            rw [not_le] at hcon
            exact hgaps (lit "ps:") (by decide) ⟨not_le.mp h4, hcon⟩
          exact ⟨(lit "ps:" ++ [maxChar], [maxChar]), by decide, hstart5, hle⟩

theorem enumRangeIds_spec (L : List Str) (hs : List.Pairwise (fun a b : Str => a < b) L)
    (endK : Str) :
    ∀ fuel key, List.Pairwise (fun a b : Str => a < b) (enumRangeIds L endK fuel key)
      ∧ ∀ x ∈ enumRangeIds L endK fuel key, key ≤ x ∧ x ≤ endK ∧ x ∈ L := by
  intro fuel
  induction fuel with
  | zero =>
    intro key
    refine ⟨List.Pairwise.nil, ?_⟩
    intro x hx
    exact absurd hx (List.not_mem_nil _)
  | succ fl ih =>
    intro key
    rw [enumRangeIds]
    cases hgl : (allDocsPage L key endK 100).getLast? with
    | none =>
      refine ⟨List.Pairwise.nil, ?_⟩
      intro x hx
      exact absurd hx (List.not_mem_nil _)
    | some last =>
      simp only []
      have hrowsub : (allDocsPage L key endK 100).Sublist
          (L.filter (fun id => decide (key ≤ id) && decide (id ≤ endK))) :=
        List.take_sublist _ _
      have hrowss : List.Pairwise (fun a b : Str => a < b) (allDocsPage L key endK 100) :=
        (hs.filter _).sublist hrowsub
      have hrowmem : ∀ x ∈ allDocsPage L key endK 100, key ≤ x ∧ x ≤ endK ∧ x ∈ L := by
        intro x hx
        have hx2 := List.mem_filter.mp (hrowsub.mem hx)
        have hx3 := hx2.2
        simp only [Bool.and_eq_true, decide_eq_true_eq] at hx3
        exact ⟨hx3.1, hx3.2, hx2.1⟩
      have hlastmem : last ∈ allDocsPage L key endK 100 := mem_of_getLastSome _ _ hgl
      have hmax : ∀ a ∈ allDocsPage L key endK 100, a ≤ last :=
        sorted_key_getLast_max (fun x : Str => x) _ hrowss last hgl
      obtain ⟨hrecs, hrecmem⟩ := ih (last ++ [maxChar])
      have hcross : ∀ a ∈ allDocsPage L key endK 100,
          ∀ b ∈ enumRangeIds L endK fl (last ++ [maxChar]), a < b := by
        intro a ha b hb
        exact lt_of_le_of_lt (hmax a ha)
          (lt_of_lt_of_le (str_lt_append last [maxChar] (by simp)) (hrecmem b hb).1)
      refine ⟨List.pairwise_append.mpr ⟨hrowss, hrecs, hcross⟩, ?_⟩
      intro x hx
      rcases List.mem_append.mp hx with hx1 | hx2
      · exact hrowmem x hx1
      · obtain ⟨hxk, hxe, hxL⟩ := hrecmem x hx2
        have hkey : key ≤ x :=
          le_trans (hrowmem last hlastmem).1
            (le_trans (le_of_lt (str_lt_append last [maxChar] (by simp))) hxk)
        exact ⟨hkey, hxe, hxL⟩

theorem sorted_str_nodup (l : List Str) (hs : List.Pairwise (fun a b : Str => a < b) l) :
    l.Nodup :=
  hs.imp (fun h => ne_of_lt h)

theorem enumerateAllNormalDocsIds_nodup (L : List Str)
    (hs : List.Pairwise (fun a b : Str => a < b) L) (fuel : Nat) :
    (enumerateAllNormalDocsIds fuel L).Nodup := by
  unfold enumerateAllNormalDocsIds
  rw [List.nodup_flatten]
  constructor
  · intro l hl
    obtain ⟨r, hr, rfl⟩ := List.mem_map.mp hl
    exact sorted_str_nodup _ (enumRangeIds_spec L hs r.2 fuel r.1).1
  · rw [List.pairwise_map]
    refine enumRanges_pairwise_disjoint.imp ?_
    intro r1 r2 hdis a ha1 ha2
    obtain ⟨hk1, he1, -⟩ := (enumRangeIds_spec L hs r1.2 fuel r1.1).2 a ha1
    obtain ⟨hk2, he2, -⟩ := (enumRangeIds_spec L hs r2.2 fuel r2.1).2 a ha2
    exact hdis a ⟨⟨hk1, he1⟩, hk2, he2⟩

/-- Claim C7, amended as the inclusive endpoints force: the five key ranges
of `enumerateAllNormalDocs` are pairwise disjoint; they exclude every id
strictly between `"h:"` and `"h:\u{10ffff}"` — in particular every chunk id
the store generates, though not the bare id `"h:"` nor ids starting with
`"h:\u{10ffff}"`; every id up to `"\u{10ffff}"` that avoids the four
reserved gaps `(p, p ++ "\u{10ffff}")` for `p ∈ {h:, i:, ix:, ps:}` lies in
one of the ranges (so the ranges cover the non-reserved id space, not all
non-chunk ids); and over a sorted server id list the paged enumeration
never yields a document id twice. -/
theorem C7_enumeration_ranges_amended :
    List.Pairwise (fun r1 r2 => ∀ id : Str, ¬(inRange id r1 ∧ inRange id r2)) enumRanges
    ∧ (∀ s : Str, ¬(s = []) → (∀ c s2, s = c :: s2 → ¬(c = maxChar)) →
        ∀ r ∈ enumRanges, ¬ inRange (lit "h:" ++ s) r)
    ∧ (∀ id : Str, id ≤ [maxChar] →
        (∀ p ∈ [lit "h:", lit "i:", lit "ix:", lit "ps:"],
          ¬(p < id ∧ id < p ++ [maxChar])) →
        ∃ r ∈ enumRanges, inRange id r)
    ∧ (∀ L : List Str, List.Pairwise (fun a b : Str => a < b) L → ∀ fuel,
        (enumerateAllNormalDocsIds fuel L).Nodup) :=
  ⟨enumRanges_pairwise_disjoint, enumRanges_exclude_chunk_ids, enumRanges_cover,
    enumerateAllNormalDocsIds_nodup⟩

/-- Witness for C7 (amended): a generated chunk id is excluded from every
range, an ordinary path id is covered, and a concrete sorted server listing
is enumerated without duplicates. -/
theorem C7_enumeration_ranges_amended_witness :
    (∀ r ∈ enumRanges, ¬ inRange (lit "h:" ++ lit "1a2b") r)
    ∧ (∃ r ∈ enumRanges, inRange (lit "note.md") r)
    ∧ (enumerateAllNormalDocsIds 3
        [lit "a", lit "f:x", lit "h:abc", lit "i:conf", lit "note.md"]).Nodup := by
  refine ⟨?_, ?_, ?_⟩
  · exact C7_enumeration_ranges_amended.2.1 (lit "1a2b") (by decide)
      (fun c s2 h => by
        have : c = '1' := by
          have h2 := congrArg List.head? h
          simpa [lit] using h2.symm
        rw [this]
        decide)
  · exact C7_enumeration_ranges_amended.2.2.1 (lit "note.md") (by decide) (by decide)
  · exact C7_enumeration_ranges_amended.2.2.2
      [lit "a", lit "f:x", lit "h:abc", lit "i:conf", lit "note.md"] (by decide) 3

theorem lookupA_some_mem {α : Type} :
    ∀ (l : List (Str × α)) (k : Str) (v : α), lookupA l k = some v → (k, v) ∈ l := by
  intro l
  induction l with
  | nil => intro k v h; simp [lookupA] at h
  | cons e t ih =>
    intro k v h
    rw [lookupA] at h
    by_cases hk : e.1 = k
    · rw [if_pos hk] at h
      injection h with h2
      have he : e = (k, v) := by
        obtain ⟨e1, e2⟩ := e
        simp only [] at hk h2
        rw [hk, h2]
      exact List.mem_cons.mpr (Or.inl he.symm)
    · rw [if_neg hk] at h
      exact List.mem_cons_of_mem _ (ih k v h)

theorem lookupA_some_key_mem {α : Type} (l : List (Str × α)) (k : Str) (v : α)
    (h : lookupA l k = some v) : k ∈ l.map (fun e => e.1) := by
  have := lookupA_some_mem l k v h
  exact List.mem_map_of_mem _ this

theorem setA_keys_sub {α : Type} :
    ∀ (l : List (Str × α)) (k : Str) (v : α) (x : Str),
    x ∈ (setA l k v).map (fun e => e.1) → x ∈ l.map (fun e => e.1) ∨ x = k := by
  intro l
  induction l with
  | nil =>
    intro k v x hx
    simp [setA] at hx
    exact Or.inr hx
  | cons e t ih =>
    intro k v x hx
    by_cases hk : e.1 = k
    · rw [setA, if_pos hk, List.map_cons] at hx
      rcases List.mem_cons.mp hx with h | h
      · exact Or.inr h
      · exact Or.inl (by rw [List.map_cons]; exact List.mem_cons_of_mem _ h)
    · rw [setA, if_neg hk, List.map_cons] at hx
      rcases List.mem_cons.mp hx with h | h
      · exact Or.inl (by rw [List.map_cons, h]; exact List.mem_cons_self _ _)
      · rcases ih k v x h with h2 | h2
        · exact Or.inl (by rw [List.map_cons]; exact List.mem_cons_of_mem _ h2)
        · exact Or.inr h2

theorem setA_keys_nodup {α : Type} :
    ∀ (l : List (Str × α)) (k : Str) (v : α),
    (l.map (fun e => e.1)).Nodup → ((setA l k v).map (fun e => e.1)).Nodup := by
  intro l
  induction l with
  | nil => intro k v _; simp [setA]
  | cons e t ih =>
    intro k v hnd
    rw [List.map_cons, List.nodup_cons] at hnd
    by_cases hk : e.1 = k
    · rw [setA, if_pos hk, List.map_cons, List.nodup_cons]
      exact ⟨hk ▸ hnd.1, hnd.2⟩
    · rw [setA, if_neg hk, List.map_cons, List.nodup_cons]
      refine ⟨fun hmem => ?_, ih k v hnd.2⟩
      rcases setA_keys_sub t k v e.1 hmem with h | h
      · exact hnd.1 h
      · exact hk h

theorem find?_filter_of_imp {α : Type} (p q : α → Bool)
    (himp : ∀ e, p e = true → q e = true) :
    ∀ (l : List α), (l.filter q).find? p = l.find? p := by
  intro l
  induction l with
  | nil => simp
  | cons e t ih =>
    by_cases hp : p e = true
    · rw [List.filter_cons, if_pos (himp e hp)]
      rw [List.find?_cons_of_pos _ hp, List.find?_cons_of_pos _ hp]
    · rw [List.find?_cons_of_neg _ (by simp [hp]), ← ih, List.filter_cons]
      by_cases hq : q e = true
      · rw [if_pos hq, List.find?_cons_of_neg _ (by simp [hp])]
      · rw [if_neg hq]

theorem HashCache.get_set_none (c : HashCache) (v : Option Str) (k : Str) :
    (c.set none v).get k = c.get k := by
  unfold HashCache.get HashCache.set
  simp only []
  rw [List.find?_cons_of_neg _ (by simp)]
  rw [find?_filter_of_imp _ _ ?_]
  intro e he
  simp only [decide_eq_true_eq] at he
  simp [he]

theorem processBulkRows_cache_get (chunks : List (Str × Str)) :
    ∀ rows (cache cache2 : HashCache),
    DFM.processBulkRows chunks cache rows = .ok cache2 →
    ∀ k, cache2.get k = cache.get k := by
  intro rows
  induction rows with
  | nil =>
    intro cache cache2 hok k
    rw [DFM.processBulkRows] at hok
    injection hok with h
    rw [← h]
  | cons r rest ih =>
    intro cache cache2 hok k
    rw [DFM.processBulkRows] at hok
    by_cases hr : r.ok = true
    · rw [if_pos hr] at hok
      rw [ih _ _ hok k, HashCache.get_set_none]
    · rw [Bool.not_eq_true] at hr
      rw [hr] at hok
      simp only [Bool.false_eq_true, if_false] at hok
      by_cases hc : r.error = some (lit "conflict")
      · rw [if_neg (by simpa using hc)] at hok
        exact ih _ _ hok k
      · rw [if_pos (by simpa using hc)] at hok
        exact absurd hok (by simp)

theorem bulkPut_rows_benign :
    ∀ (docs : List UploadLeaf) (db : CouchDB), ∀ r ∈ (CouchDB.bulkPut db docs).2,
    r.ok = true ∨ r.error = some (lit "conflict") := by
  intro docs
  induction docs with
  | nil => intro db r hr; simp [CouchDB.bulkPut] at hr
  | cons d ds ih =>
    intro db r hr
    rw [CouchDB.bulkPut] at hr
    cases hg : db.get d._id with
    | some old =>
      simp only [hg] at hr
      rcases List.mem_cons.mp hr with rfl | h
      · exact Or.inr rfl
      · exact ih db r h
    | none =>
      simp only [hg] at hr
      rcases List.mem_cons.mp hr with rfl | h
      · exact Or.inl rfl
      · exact ih _ r h

theorem bulkPut_get_not_mem :
    ∀ (docs : List UploadLeaf) (db : CouchDB) (id : Str),
    id ∉ docs.map (fun d => d._id) →
    (CouchDB.bulkPut db docs).1.get id = db.get id := by
  intro docs
  induction docs with
  | nil => intro db id _; rw [CouchDB.bulkPut]
  | cons d ds ih =>
    intro db id hid
    have hne : ¬(id = d._id) := fun h => hid (by rw [List.map_cons, h]; exact List.mem_cons_self _ _)
    have hrest : id ∉ ds.map (fun d => d._id) :=
      fun h => hid (by rw [List.map_cons]; exact List.mem_cons_of_mem _ h)
    rw [CouchDB.bulkPut]
    cases hg : db.get d._id with
    | some old =>
      simp only [hg]
      exact ih db id hrest
    | none =>
      simp only [hg]
      rw [ih _ id hrest, CouchDB.get_store_ne _ _ _ _ hne]

theorem bulkPut_get_insert :
    ∀ (docs : List UploadLeaf) (db : CouchDB) (d0 : UploadLeaf),
    (docs.map (fun d => d._id)).Nodup → d0 ∈ docs → db.get d0._id = none →
    (CouchDB.bulkPut db docs).1.get d0._id
      = some { rev := 1, dtype := some (lit "leaf"), data := some d0.data } := by
  intro docs
  induction docs with
  | nil => intro db d0 _ hmem; exact absurd hmem (List.not_mem_nil _)
  | cons d ds ih =>
    intro db d0 hnd hmem habs
    rw [List.map_cons, List.nodup_cons] at hnd
    rw [CouchDB.bulkPut]
    rcases List.mem_cons.mp hmem with rfl | hmem2
    · rw [habs]
      simp only []
      rw [bulkPut_get_not_mem ds _ _ hnd.1, CouchDB.get_store_same]
    · have hne : ¬(d0._id = d._id) := by
        intro h
        exact hnd.1 (h ▸ List.mem_map_of_mem (fun x => x._id) hmem2)
      cases hg : db.get d._id with
      | some old =>
        simp only [hg]
        exact ih db d0 hnd.2 hmem2 habs
      | none =>
        simp only [hg]
        refine ih _ d0 hnd.2 hmem2 ?_
        rw [CouchDB.get_store_ne _ _ _ _ hne, habs]

theorem putDoc_ok_char (db : CouchDB) (id : Str) (d : StoredDoc) (rev : Option Nat)
    (hok : (db.putDoc id d rev).2 = true) :
    ∃ R, (db.putDoc id d rev).1.get id = some { d with rev := R }
      ∧ ∀ k, ¬(k = id) → (db.putDoc id d rev).1.get k = db.get k := by
  unfold CouchDB.putDoc at hok ⊢
  cases hg : db.get id with
  | none =>
    cases rev with
    | none =>
      simp only [hg]
      exact ⟨1, CouchDB.get_store_same _ _ _, fun k hk => CouchDB.get_store_ne _ _ _ _ hk⟩
    | some r =>
      simp only [hg] at hok
      simp at hok
  | some old =>
    cases rev with
    | none =>
      simp only [hg] at hok
      simp at hok
    | some r =>
      simp only [hg] at hok ⊢
      by_cases hr : r = old.rev
      · rw [if_pos hr]
        exact ⟨old.rev + 1, CouchDB.get_store_same _ _ _,
          fun k hk => CouchDB.get_store_ne _ _ _ _ hk⟩
      · rw [if_neg hr] at hok
        simp at hok

theorem chunksOfGo_join (n : Nat) : ∀ (fuel : Nat) (s : Str),
    joinS (DFM.chunksOfGo n fuel s) = s := by
  intro fuel
  induction fuel with
  | zero =>
    intro s
    rw [DFM.chunksOfGo]
    by_cases hs : s = []
    · rw [if_pos hs, hs]
      rfl
    · rw [if_neg hs]
      simp [joinS]
  | succ fl ih =>
    intro s
    rw [DFM.chunksOfGo]
    by_cases hs : s = []
    · rw [if_pos hs, hs]
      rfl
    · rw [if_neg hs]
      by_cases hn : n = 0
      · rw [if_pos hn]
        simp [joinS]
      · rw [if_neg hn]
        show joinS (s.take n :: DFM.chunksOfGo n fl (s.drop n)) = s
        have : joinS (s.take n :: DFM.chunksOfGo n fl (s.drop n))
            = s.take n ++ joinS (DFM.chunksOfGo n fl (s.drop n)) := rfl
        rw [this, ih (s.drop n), List.take_append_drop]

theorem chunksOfGo_ne_nil (n : Nat) : ∀ (fuel : Nat) (s : Str),
    ∀ p ∈ DFM.chunksOfGo n fuel s, ¬(p = []) := by
  intro fuel
  induction fuel with
  | zero =>
    intro s p hp
    rw [DFM.chunksOfGo] at hp
    by_cases hs : s = []
    · rw [if_pos hs] at hp
      exact absurd hp (List.not_mem_nil _)
    · rw [if_neg hs] at hp
      rcases List.mem_cons.mp hp with rfl | h
      · exact hs
      · exact absurd h (List.not_mem_nil _)
  | succ fl ih =>
    intro s p hp
    rw [DFM.chunksOfGo] at hp
    by_cases hs : s = []
    · rw [if_pos hs] at hp
      exact absurd hp (List.not_mem_nil _)
    · rw [if_neg hs] at hp
      by_cases hn : n = 0
      · rw [if_pos hn] at hp
        rcases List.mem_cons.mp hp with rfl | h
        · exact hs
        · exact absurd h (List.not_mem_nil _)
      · rw [if_neg hn] at hp
        rcases List.mem_cons.mp hp with rfl | h
        · intro htake
          have : s.take n ≠ [] := by
            intro h2
            have hl := congrArg List.length h2
            rw [List.length_take] at hl
            simp only [List.length_nil] at hl
            have h01 : 0 < n := Nat.pos_of_ne_zero hn
            have h02 : 0 < s.length := List.length_pos.mpr hs
            omega
          exact this htake
        · exact ih (s.drop n) p h

theorem makeChunksGo_cid (h : Str → Nat) (opts : DFMOptions) (cache : HashCache) (p : Str)
    (HR : ∀ c, cache.revGet p = some c → c = DFM.computeLeafId h opts p) :
    (match cache.revGet p with
      | some c => if c.isEmpty then DFM.computeLeafId h opts p else c
      | none => DFM.computeLeafId h opts p) = DFM.computeLeafId h opts p := by
  cases hr : cache.revGet p with
  | none => rfl
  | some c =>
    simp only []
    by_cases hc : c.isEmpty
    · rw [if_pos hc]
    · rw [if_neg hc]
      exact HR c hr

theorem makeChunksGo_children (h : Str → Nat) (opts : DFMOptions) (cache : HashCache) :
    ∀ (pieces : List Str) (chunks0 : List (Str × Str)) (children0 : List Str),
    (∀ p ∈ pieces, ∀ c, cache.revGet p = some c → c = DFM.computeLeafId h opts p) →
    (DFM.makeChunksGo h opts cache pieces chunks0 children0).2
      = children0 ++ pieces.map (DFM.computeLeafId h opts) := by
  intro pieces
  induction pieces with
  | nil => intro chunks0 children0 _; simp [DFM.makeChunksGo]
  | cons p rest ih =>
    intro chunks0 children0 HR
    rw [DFM.makeChunksGo]
    rw [makeChunksGo_cid h opts cache p (HR p (List.mem_cons_self _ _))]
    rw [ih _ _ (fun q hq => HR q (List.mem_cons_of_mem _ hq))]
    rw [List.map_cons, List.append_assoc]
    rfl

theorem makeChunksGo_keys (h : Str → Nat) (opts : DFMOptions) (cache : HashCache) :
    ∀ (pieces : List Str) (chunks0 : List (Str × Str)) (children0 : List Str),
    (chunks0.map (fun e => e.1)).Nodup →
    (((DFM.makeChunksGo h opts cache pieces chunks0 children0).1).map (fun e => e.1)).Nodup := by
  intro pieces
  induction pieces with
  | nil => intro chunks0 children0 hnd; exact hnd
  | cons p rest ih =>
    intro chunks0 children0 hnd
    rw [DFM.makeChunksGo]
    exact ih _ _ (setA_keys_nodup _ _ _ hnd)

theorem makeChunksGo_preserve (h : Str → Nat) (opts : DFMOptions) (cache : HashCache) :
    ∀ (pieces : List Str) (chunks0 : List (Str × Str)) (children0 : List Str) (k : Str),
    (∀ q ∈ pieces, ∀ c, cache.revGet q = some c → c = DFM.computeLeafId h opts q) →
    (∀ q ∈ pieces, ¬(k = DFM.computeLeafId h opts q)) →
    lookupA (DFM.makeChunksGo h opts cache pieces chunks0 children0).1 k
      = lookupA chunks0 k := by
  intro pieces
  induction pieces with
  | nil => intro chunks0 children0 k _ _; rfl
  | cons p rest ih =>
    intro chunks0 children0 k HR hk
    rw [DFM.makeChunksGo]
    rw [makeChunksGo_cid h opts cache p (HR p (List.mem_cons_self _ _))]
    rw [ih _ _ _ (fun q hq => HR q (List.mem_cons_of_mem _ hq))
      (fun q hq => hk q (List.mem_cons_of_mem _ hq))]
    exact lookupA_setA_ne _ _ _ _ (hk p (List.mem_cons_self _ _))

theorem makeChunksGo_lookup (h : Str → Nat) (opts : DFMOptions) (cache : HashCache) :
    ∀ (pieces : List Str) (chunks0 : List (Str × Str)) (children0 : List Str),
    (∀ p ∈ pieces, ∀ c, cache.revGet p = some c → c = DFM.computeLeafId h opts p) →
    (∀ p1 ∈ pieces, ∀ p2 ∈ pieces,
      DFM.computeLeafId h opts p1 = DFM.computeLeafId h opts p2 → p1 = p2) →
    ∀ p ∈ pieces, lookupA (DFM.makeChunksGo h opts cache pieces chunks0 children0).1
      (DFM.computeLeafId h opts p) = some p := by
  intro pieces
  induction pieces with
  | nil => intro chunks0 children0 _ _ p hp; exact absurd hp (List.not_mem_nil _)
  | cons p0 rest ih =>
    intro chunks0 children0 HR Hinj p hp
    rw [DFM.makeChunksGo]
    rw [makeChunksGo_cid h opts cache p0 (HR p0 (List.mem_cons_self _ _))]
    have HRrest : ∀ q ∈ rest, ∀ c, cache.revGet q = some c → c = DFM.computeLeafId h opts q :=
      fun q hq => HR q (List.mem_cons_of_mem _ hq)
    have Hinjrest : ∀ p1 ∈ rest, ∀ p2 ∈ rest,
        DFM.computeLeafId h opts p1 = DFM.computeLeafId h opts p2 → p1 = p2 :=
      fun p1 h1 p2 h2 => Hinj p1 (List.mem_cons_of_mem _ h1) p2 (List.mem_cons_of_mem _ h2)
    rcases List.mem_cons.mp hp with rfl | hprest
    · by_cases hex : ∃ q ∈ rest, DFM.computeLeafId h opts q = DFM.computeLeafId h opts p
      · obtain ⟨q, hq, hqe⟩ := hex
        have hqp : q = p := Hinj q (List.mem_cons_of_mem _ hq) p (List.mem_cons_self _ _) hqe
        subst hqp
        exact ih _ _ HRrest Hinjrest q hq
      · rw [makeChunksGo_preserve h opts cache rest _ _ _ HRrest ?hne]
        · exact lookupA_setA_same _ _ _
        case hne =>
          intro q hq hkq
          exact hex ⟨q, hq, hkq.symm⟩
    · exact ih _ _ HRrest Hinjrest p hprest

theorem processRows_exist_lookup (opts : DFMOptions) (k0 : Str) (doc0 : Option StoredDoc) :
    ∀ rows (ret : List (Str × DFM.CVal)) (cache : HashCache) ret2 cache2,
    (rows.map (fun r => r.1)).Nodup →
    (k0, doc0) ∈ rows →
    DFM.processRows opts true rows ret cache = .ok (ret2, cache2) →
    lookupA ret2 k0 = some (.bool doc0.isSome) := by
  intro rows
  induction rows with
  | nil =>
    intro ret cache ret2 cache2 _ hmem
    exact absurd hmem (List.not_mem_nil _)
  | cons row rest ih =>
    intro ret cache ret2 cache2 hnd hmem hok
    obtain ⟨k1, v1⟩ := row
    obtain ⟨hk0nd, hndrest⟩ := List.nodup_cons.mp hnd
    rcases List.mem_cons.mp hmem with heq | hmem2
    · injection heq with hk1 hv1
      subst hk1
      have hnotin : k0 ∉ rest.map (fun r => r.1) := by simpa using hk0nd
      cases v1 with
      | none =>
        rw [DFM.processRows] at hok
        rw [processRows_ok_preserve opts true k0 rest _ _ _ _ hnotin hok, hv1]
        exact lookupA_setA_same _ _ _
      | some d1 =>
        rw [DFM.processRows] at hok
        simp only [if_true] at hok
        rw [processRows_ok_preserve opts true k0 rest _ _ _ _ hnotin hok, hv1]
        exact lookupA_setA_same _ _ _
    · cases v1 with
      | none =>
        rw [DFM.processRows] at hok
        exact ih _ _ _ _ hndrest hmem2 hok
      | some d1 =>
        rw [DFM.processRows] at hok
        simp only [if_true] at hok
        exact ih _ _ _ _ hndrest hmem2 hok

theorem collectChunks_exist_char (opts : DFMOptions) (db : CouchDB) (cache : HashCache)
    (ids : List Str) (cid : Str) (hmem : cid ∈ ids) (ret : List (Str × DFM.CVal))
    (c2 : HashCache) (hok : DFM.collectChunks opts db cache ids true = .ok (ret, c2)) :
    (∀ s, cache.get cid = some s → lookupA ret cid = some (.str s))
    ∧ (cache.get cid = none → lookupA ret cid = some (.bool (db.get cid).isSome)) := by
  rw [DFM.collectChunks] at hok
  by_cases hq : (DFM.cachePartition cache ids).2 = []
  · simp only [hq, if_pos] at hok
    injection hok with h
    injection h with h1 h2
    constructor
    · intro s hs
      rw [← h1]
      exact cachePartition_fst_lookup_hit cache ids cid s hmem hs
    · intro hmiss
      exact absurd (hq ▸ cachePartition_miss_mem cache ids cid hmem hmiss)
        (List.not_mem_nil _)
  · simp only [hq, if_false] at hok
    have hkeys : (db.allDocsRows (DFM.unique (DFM.cachePartition cache ids).2)).map
        (fun r => r.1) = DFM.unique (DFM.cachePartition cache ids).2 :=
      collectChunks_rows_keys cache ids db
    constructor
    · intro s hs
      have hnot : cid ∉ (db.allDocsRows (DFM.unique (DFM.cachePartition cache ids).2)).map
          (fun r => r.1) := by
        rw [hkeys, mem_unique]
        intro hin
        rw [(cachePartition_snd_sub cache ids cid hin).2] at hs
        exact Option.noConfusion hs
      rw [processRows_ok_preserve opts true cid _ _ _ _ _ hnot hok]
      exact cachePartition_fst_lookup_hit cache ids cid s hmem hs
    · intro hmiss
      have hin : cid ∈ (DFM.cachePartition cache ids).2 :=
        cachePartition_miss_mem cache ids cid hmem hmiss
      have hrow : (cid, db.get cid) ∈ db.allDocsRows (DFM.unique (DFM.cachePartition cache ids).2) :=
        List.mem_map_of_mem _ ((mem_unique _ _).mpr hin)
      refine processRows_exist_lookup opts cid (db.get cid) _ _ _ _ _ ?_ hrow hok
      rw [hkeys]
      exact nodup_unique _

theorem processRows_good (opts : DFMOptions) (v : Str → Str) :
    ∀ rows (ret : List (Str × DFM.CVal)) (cache : HashCache),
    (∀ kd ∈ rows, ∃ d : StoredDoc, kd.2 = some d ∧ d.dtype = some (lit "leaf")
      ∧ d.data = some (encPayload opts (v kd.1))) →
    ∃ ret2 cache2, DFM.processRows opts false rows ret cache = .ok (ret2, cache2)
      ∧ ∀ k0, lookupA ret2 k0
          = if k0 ∈ rows.map (fun r => r.1) then some (.str (v k0)) else lookupA ret k0 := by
  intro rows
  induction rows with
  | nil =>
    intro ret cache _
    exact ⟨ret, cache, rfl, fun k0 => by simp⟩
  | cons row rest ih =>
    intro ret cache hgood
    obtain ⟨k1, v1⟩ := row
    obtain ⟨d1, hd1, hty1, hdata1⟩ := hgood (k1, v1) (List.mem_cons_self _ _)
    simp only [] at hd1
    subst hd1
    have hdec : (if truthyS opts.passphrase then
        decryptStr (encPayload opts (v k1)) (opts.passphrase.getD [])
        else .ok (encPayload opts (v k1))) = .ok (v k1) := by
      unfold encPayload
      by_cases ht : truthyS opts.passphrase = true
      · rw [if_pos ht, if_pos ht, decryptStr_encryptStr]
      · rw [Bool.not_eq_true] at ht
        rw [ht]
        simp
    obtain ⟨ret2, cache2, hrec, hlook⟩ := ih (setA ret k1 (.str (v k1)))
      (cache.set (some k1) (some (v k1)))
      (fun kd hkd => hgood kd (List.mem_cons_of_mem _ hkd))
    refine ⟨ret2, cache2, ?_, ?_⟩
    · rw [DFM.processRows]
      simp only [Bool.false_eq_true, if_false]
      rw [if_neg (by simpa using hty1)]
      simp only [hdata1, hdec]
      exact hrec
    · intro k0
      rw [hlook k0]
      by_cases hk0 : k0 ∈ rest.map (fun r => r.1)
      · rw [if_pos hk0, if_pos (by rw [List.map_cons]; exact List.mem_cons_of_mem _ hk0)]
      · rw [if_neg hk0]
        by_cases hk1 : k0 = k1
        · subst hk1
          rw [if_pos (by rw [List.map_cons]; exact List.mem_cons_self _ _)]
          exact lookupA_setA_same _ _ _
        · rw [if_neg ?_, lookupA_setA_ne _ _ _ _ hk1]
          intro hin
          rw [List.map_cons] at hin
          rcases List.mem_cons.mp hin with h | h
          · exact hk1 h
          · exact hk0 h

theorem collectChunks_good (opts : DFMOptions) (db : CouchDB) (cache : HashCache)
    (cs : List Str) (v : Str → Str)
    (hgood : ∀ cid ∈ cs,
      (∀ s, cache.get cid = some s → s = v cid)
      ∧ (cache.get cid = none → ∃ d, db.get cid = some d ∧ d.dtype = some (lit "leaf")
          ∧ d.data = some (encPayload opts (v cid)))) :
    ∃ ret cache2, DFM.collectChunks opts db cache cs false = .ok (ret, cache2)
      ∧ ∀ cid ∈ cs, lookupA ret cid = some (.str (v cid)) := by
  rw [DFM.collectChunks]
  by_cases hq : (DFM.cachePartition cache cs).2 = []
  · refine ⟨(DFM.cachePartition cache cs).1, cache, by simp [hq], ?_⟩
    intro cid hcid
    cases hc : cache.get cid with
    | none =>
      exact absurd (hq ▸ cachePartition_miss_mem cache cs cid hcid hc) (List.not_mem_nil _)
    | some s =>
      rw [(hgood cid hcid).1 s hc] at hc
      exact cachePartition_fst_lookup_hit cache cs cid (v cid) hcid hc
  · have hrowsgood : ∀ kd ∈ db.allDocsRows (DFM.unique (DFM.cachePartition cache cs).2),
        ∃ d : StoredDoc, kd.2 = some d ∧ d.dtype = some (lit "leaf")
          ∧ d.data = some (encPayload opts (v kd.1)) := by
      rintro ⟨k, doc⟩ hkd
      obtain ⟨k2, hk2, heq⟩ := List.mem_map.mp hkd
      injection heq with he1 he2
      subst he1
      have hk2mem : k2 ∈ (DFM.cachePartition cache cs).2 := (mem_unique _ _).mp hk2
      obtain ⟨hkcs, hkmiss⟩ := cachePartition_snd_sub cache cs k2 hk2mem
      obtain ⟨d, hd, hdty, hddata⟩ := (hgood k2 hkcs).2 hkmiss
      exact ⟨d, by rw [← he2, hd], hdty, hddata⟩
    obtain ⟨ret2, cache2, hrec, hlook⟩ := processRows_good opts v _
      (DFM.cachePartition cache cs).1 cache hrowsgood
    refine ⟨ret2, cache2, by simp [hq, hrec], ?_⟩
    intro cid hcid
    rw [hlook cid]
    by_cases hin : cid ∈ (db.allDocsRows (DFM.unique (DFM.cachePartition cache cs).2)).map
        (fun r => r.1)
    · rw [if_pos hin]
    · rw [if_neg hin]
      rw [collectChunks_rows_keys, mem_unique] at hin
      cases hc : cache.get cid with
      | none =>
        exact absurd (cachePartition_miss_mem cache cs cid hcid hc) hin
      | some s =>
        rw [(hgood cid hcid).1 s hc] at hc
        exact cachePartition_fst_lookup_hit cache cs cid (v cid) hcid hc

theorem getById_metaOnly_cache (opts : DFMOptions) (st : DBState) (id : Str)
    (gr : DFM.GetResult × HashCache) (h : DFM.getById opts st id true = .ok gr) :
    gr.2 = st.cache := by
  unfold DFM.getById at h
  cases hdb : st.db.get id with
  | none =>
    simp only [hdb] at h
    injection h with h2
    rw [← h2]
  | some docEntry =>
    simp only [hdb] at h
    by_cases hty : DFM.isMetaType docEntry = true
    · rw [if_neg (by simpa using hty)] at h
      cases hdec : DFM.decryptDocumentPath opts docEntry with
      | error e =>
        simp only [hdec] at h
        exact absurd h (by simp)
      | ok doc =>
        simp only [hdec, if_true] at h
        injection h with h2
        rw [← h2]
    · rw [if_pos (by simpa using hty)] at h
      injection h with h2
      rw [← h2]

theorem getById_notMeta (opts : DFMOptions) (st : DBState) (id : Str) (d : StoredDoc)
    (gr : DFM.GetResult × HashCache) (hdb : st.db.get id = some d)
    (hty : ¬(DFM.isMetaType d = true)) (h : DFM.getById opts st id true = .ok gr) :
    gr.1 = .notFound := by
  unfold DFM.getById at h
  simp only [hdb] at h
  rw [if_pos (by simpa using hty)] at h
  injection h with h2
  rw [← h2]

theorem putUploads_eq (h : Str → Nat) (opts : DFMOptions) (st : DBState) (path : Str)
    (data : List Str) (ret0 : List (Str × DFM.CVal)) (cch0 : HashCache)
    (hex : DFM.collectChunks opts st.db st.cache
      (((DFM.makeChunks h opts st.cache (DFM.putPieces opts path data)).1).map (fun e => e.1))
      true = .ok (ret0, cch0)) :
    DFM.putUploads h opts st path data
      = ((DFM.makeChunks h opts st.cache (DFM.putPieces opts path data)).1.filter
          (fun e => ¬((lookupA ret0 e.1).elim false DFM.CVal.truthy))).map (fun e =>
        { _id := e.1,
          data := if truthyS opts.passphrase then encryptStr e.2 (opts.passphrase.getD [])
                  else e.2 : UploadLeaf }) := by
  simp only [DFM.putUploads, hex]

theorem putUploads_ids_nodup (h : Str → Nat) (opts : DFMOptions) (st : DBState) (path : Str)
    (data : List Str) (ret0 : List (Str × DFM.CVal)) (cch0 : HashCache)
    (hex : DFM.collectChunks opts st.db st.cache
      (((DFM.makeChunks h opts st.cache (DFM.putPieces opts path data)).1).map (fun e => e.1))
      true = .ok (ret0, cch0)) :
    ((DFM.putUploads h opts st path data).map (fun d => d._id)).Nodup := by
  rw [putUploads_eq h opts st path data ret0 cch0 hex, List.map_map]
  have hmc : ((DFM.makeChunks h opts st.cache (DFM.putPieces opts path data)).1.map
      (fun e => e.1)).Nodup :=
    makeChunksGo_keys h opts st.cache (DFM.putPieces opts path data) [] [] (by simp)
  exact List.Nodup.sublist
    (List.Sublist.map _ (List.filter_sublist _)) hmc

theorem putUploads_not_mem (h : Str → Nat) (opts : DFMOptions) (st : DBState) (path : Str)
    (data : List Str) (ret0 : List (Str × DFM.CVal)) (cch0 : HashCache)
    (hex : DFM.collectChunks opts st.db st.cache
      (((DFM.makeChunks h opts st.cache (DFM.putPieces opts path data)).1).map (fun e => e.1))
      true = .ok (ret0, cch0)) (cid : Str) (b : Bool)
    (hlk : lookupA ret0 cid = some (.bool b)) (hb : b = true) :
    cid ∉ (DFM.putUploads h opts st path data).map (fun d => d._id) := by
  rw [putUploads_eq h opts st path data ret0 cch0 hex, List.map_map]
  intro hmem
  obtain ⟨e, he, heq⟩ := List.mem_map.mp hmem
  have he2 := List.mem_filter.mp he
  simp only [Function.comp] at heq
  rw [heq, hlk, hb] at he2
  simp [DFM.CVal.truthy] at he2

theorem putUploads_mem (h : Str → Nat) (opts : DFMOptions) (st : DBState) (path : Str)
    (data : List Str) (ret0 : List (Str × DFM.CVal)) (cch0 : HashCache)
    (hex : DFM.collectChunks opts st.db st.cache
      (((DFM.makeChunks h opts st.cache (DFM.putPieces opts path data)).1).map (fun e => e.1))
      true = .ok (ret0, cch0)) (cid p : Str)
    (hmem : (cid, p) ∈ (DFM.makeChunks h opts st.cache (DFM.putPieces opts path data)).1)
    (hlk : lookupA ret0 cid = some (.bool false)) :
    ({ _id := cid, data := encPayload opts p : UploadLeaf })
      ∈ DFM.putUploads h opts st path data := by
  rw [putUploads_eq h opts st path data ret0 cch0 hex]
  have hfil : (cid, p) ∈ (DFM.makeChunks h opts st.cache (DFM.putPieces opts path data)).1.filter
      (fun e => ¬((lookupA ret0 e.1).elim false DFM.CVal.truthy)) := by
    refine List.mem_filter.mpr ⟨hmem, ?_⟩
    simp only [hlk]
    simp [DFM.CVal.truthy]
  have := List.mem_map_of_mem (fun e =>
    ({ _id := e.1,
       data := if truthyS opts.passphrase then encryptStr e.2 (opts.passphrase.getD [])
               else e.2 : UploadLeaf })) hfil
  simpa [encPayload] using this

theorem put_success_state (h : Str → Nat) (opts : DFMOptions) (st0 st1 : DBState)
    (path : Str) (F : List Str) (info : FileInfo) (dtype : Str)
    (HR : ∀ p ∈ DFM.putPieces opts path F, ∀ c, st0.cache.revGet p = some c →
      c = DFM.computeLeafId h opts p)
    (Hinj : ∀ p1 ∈ DFM.putPieces opts path F, ∀ p2 ∈ DFM.putPieces opts path F,
      DFM.computeLeafId h opts p1 = DFM.computeLeafId h opts p2 → p1 = p2)
    (Hcache : ∀ p ∈ DFM.putPieces opts path F, ∀ s,
      st0.cache.get (DFM.computeLeafId h opts p) = some s → s = p)
    (Hdb : ∀ p ∈ DFM.putPieces opts path F, ∀ d,
      st0.db.get (DFM.computeLeafId h opts p) = some d →
      d.dtype = some (lit "leaf") ∧ d.data = some (encPayload opts p))
    (Hput : DFM.put h opts st0 path F info dtype = .ok (true, st1)) :
    (∃ R, st1.db.get (DFM.path2id h opts path) = some
      { DFM.encryptDocumentPath opts
          { dtype := some dtype, path := some path,
            children := some ((DFM.putPieces opts path F).map (DFM.computeLeafId h opts)),
            ctime := some info.ctime, mtime := some info.mtime, size := some info.size }
        with rev := R })
    ∧ (∀ k, st1.cache.get k = st0.cache.get k)
    ∧ (∀ p ∈ DFM.putPieces opts path F,
        st0.cache.get (DFM.computeLeafId h opts p) = some p
        ∨ (¬(DFM.computeLeafId h opts p = DFM.path2id h opts path)
           ∧ ∃ d, st1.db.get (DFM.computeLeafId h opts p) = some d
             ∧ d.dtype = some (lit "leaf") ∧ d.data = some (encPayload opts p))) := by
  obtain ⟨⟨ret0, cch0⟩, hex⟩ := collectChunks_existence_ok opts st0.db st0.cache
    (((DFM.makeChunks h opts st0.cache (DFM.putPieces opts path F)).1).map (fun e => e.1))
  have hben := bulkPut_rows_benign (DFM.putUploads h opts st0 path F) st0.db
  obtain ⟨cache2, hpb⟩ := processBulkRows_ok_of
    (DFM.makeChunks h opts st0.cache (DFM.putPieces opts path F)).1
    (CouchDB.bulkPut st0.db (DFM.putUploads h opts st0 path F)).2 st0.cache hben
  unfold DFM.put DFM.putWith at Hput
  simp only [hex, hpb] at Hput
  cases hgid : DFM.getById opts
      ⟨(CouchDB.bulkPut st0.db (DFM.putUploads h opts st0 path F)).1, cache2⟩
      (DFM.path2id h opts path) true with
  | error e =>
    simp only [hgid] at Hput
    exact absurd Hput (by simp)
  | ok gr =>
    simp only [hgid] at Hput
    injection Hput with h1
    rw [Prod.mk.injEq] at h1
    obtain ⟨hpd2, hst1⟩ := h1
    have hgr2 : gr.2 = cache2 := getById_metaOnly_cache opts _ _ gr hgid
    obtain ⟨R, hmd, hpres⟩ := putDoc_ok_char _ _ _ _ hpd2
    have hdb1 : st1.db = ((CouchDB.bulkPut st0.db (DFM.putUploads h opts st0 path F)).1.putDoc
        (DFM.path2id h opts path)
        (DFM.encryptDocumentPath opts
          { dtype := some dtype, path := some path,
            children := some (DFM.makeChunks h opts st0.cache (DFM.putPieces opts path F)).2,
            ctime := some info.ctime, mtime := some info.mtime, size := some info.size })
        (match gr.1 with | DFM.GetResult.meta d => some d.rev | _ => none)).1 := by
      rw [← hst1]
    have hcache1 : st1.cache = gr.2 := by
      rw [← hst1]
    have hch : (DFM.makeChunks h opts st0.cache (DFM.putPieces opts path F)).2
        = (DFM.putPieces opts path F).map (DFM.computeLeafId h opts) := by
      unfold DFM.makeChunks
      simpa using makeChunksGo_children h opts st0.cache (DFM.putPieces opts path F) [] [] HR
    refine ⟨⟨R, ?_⟩, ?_, ?_⟩
    · rw [hdb1, ← hch]
      exact hmd
    · intro k
      rw [hcache1, hgr2]
      exact processBulkRows_cache_get _ _ _ _ hpb k
    · intro p hp
      have hlkp : lookupA (DFM.makeChunks h opts st0.cache (DFM.putPieces opts path F)).1
          (DFM.computeLeafId h opts p) = some p := by
        unfold DFM.makeChunks
        exact makeChunksGo_lookup h opts st0.cache (DFM.putPieces opts path F) [] [] HR Hinj p hp
      cases hc : st0.cache.get (DFM.computeLeafId h opts p) with
      | some s =>
        refine Or.inl ?_
        rw [Hcache p hp s hc]
      | none =>
        have hcidmem : DFM.computeLeafId h opts p
            ∈ ((DFM.makeChunks h opts st0.cache (DFM.putPieces opts path F)).1).map
              (fun e => e.1) :=
          lookupA_some_key_mem _ _ _ hlkp
        have hchar := (collectChunks_exist_char opts st0.db st0.cache _ _ hcidmem
          ret0 cch0 hex).2 hc
        have hleaf : ∃ d,
            (CouchDB.bulkPut st0.db (DFM.putUploads h opts st0 path F)).1.get
              (DFM.computeLeafId h opts p) = some d
            ∧ d.dtype = some (lit "leaf") ∧ d.data = some (encPayload opts p) := by
          cases hdb0 : st0.db.get (DFM.computeLeafId h opts p) with
          | some d =>
            obtain ⟨hdty, hdata⟩ := Hdb p hp d hdb0
            rw [hdb0] at hchar
            simp only [Option.isSome_some] at hchar
            have hnotup := putUploads_not_mem h opts st0 path F ret0 cch0 hex
              (DFM.computeLeafId h opts p) true hchar rfl
            rw [bulkPut_get_not_mem _ _ _ hnotup, hdb0]
            exact ⟨d, rfl, hdty, hdata⟩
          | none =>
            rw [hdb0] at hchar
            simp only [Option.isSome_none] at hchar
            have hmem2 : (DFM.computeLeafId h opts p, p)
                ∈ (DFM.makeChunks h opts st0.cache (DFM.putPieces opts path F)).1 :=
              lookupA_some_mem _ _ _ hlkp
            have hup := putUploads_mem h opts st0 path F ret0 cch0 hex _ p hmem2 hchar
            have hnd := putUploads_ids_nodup h opts st0 path F ret0 cch0 hex
            have hins := bulkPut_get_insert (DFM.putUploads h opts st0 path F) st0.db
              { _id := DFM.computeLeafId h opts p, data := encPayload opts p } hnd hup hdb0
            exact ⟨_, hins, rfl, rfl⟩
        have hne : ¬(DFM.computeLeafId h opts p = DFM.path2id h opts path) := by
          intro hcid_id
          obtain ⟨d, hbrid, hdty, _⟩ := hleaf
          rw [hcid_id] at hbrid
          have hnm : ¬(DFM.isMetaType d = true) := by
            unfold DFM.isMetaType
            rw [hdty]
            decide
          have hgr1 : gr.1 = .notFound :=
            getById_notMeta opts
              ⟨(CouchDB.bulkPut st0.db (DFM.putUploads h opts st0 path F)).1, cache2⟩
              (DFM.path2id h opts path) d gr hbrid hnm hgid
          simp only [hgr1] at hpd2
          unfold CouchDB.putDoc at hpd2
          simp only [hbrid] at hpd2
          simp at hpd2
        obtain ⟨d, hbrid, hdty, hdata⟩ := hleaf
        refine Or.inr ⟨hne, d, ?_, hdty, hdata⟩
        rw [hdb1, hpres _ hne]
        exact hbrid

theorem joinS_putPieces (opts : DFMOptions) (path : Str) (F : List Str) :
    joinS (DFM.putPieces opts path F) = joinS F := by
  unfold DFM.putPieces DFM.splitPieces2
  exact chunksOfGo_join _ _ _

theorem decryptDocumentPath_ok_of (opts : DFMOptions) (d : StoredDoc) (p0 : Str)
    (hpath : truthyS opts.passphrase = true →
      d.path = some (encryptStr p0 (opts.passphrase.getD []))) :
    ∃ Q, DFM.decryptDocumentPath opts d = .ok { d with path := Q } := by
  unfold DFM.decryptDocumentPath
  by_cases ht : truthyS opts.passphrase = true
  · refine ⟨some p0, ?_⟩
    rw [if_pos ht]
    simp only [hpath ht, decryptStr_encryptStr]
  · refine ⟨d.path, ?_⟩
    rw [Bool.not_eq_true] at ht
    rw [ht]
    simp only [Bool.false_eq_true, if_false]

theorem getByMeta_good (opts : DFMOptions) (db : CouchDB) (cache : HashCache) (d : StoredDoc)
    (cs : List Str) (v : Str → Str) (hch : d.children = some cs)
    (hgood : ∀ cid ∈ cs,
      (∀ s, cache.get cid = some s → s = v cid)
      ∧ (cache.get cid = none → ∃ dd, db.get cid = some dd ∧ dd.dtype = some (lit "leaf")
          ∧ dd.data = some (encPayload opts (v cid)))) :
    ∃ cache2, DFM.getByMeta opts db cache d = .ok (.ready d (cs.map v), cache2) := by
  obtain ⟨ret, cache2, hcc, hlook⟩ := collectChunks_good opts db cache cs v hgood
  refine ⟨cache2, ?_⟩
  unfold DFM.getByMeta
  simp only [hch, hcc]
  have hdata : cs.map (fun e =>
      match lookupA ret e with
      | some v0 => if v0 = DFM.CVal.bool false then DFM.CVal.bool false else v0
      | none => DFM.CVal.bool false) = cs.map (fun e => DFM.CVal.str (v e)) := by
    refine List.map_congr_left ?_
    intro cid hcid
    rw [hlook cid hcid]
    simp
  rw [hdata]
  have hanyf : (cs.map (fun e => DFM.CVal.str (v e))).any
      (fun x => decide (x = DFM.CVal.bool false)) = false := by
    simp
  rw [hanyf]
  simp only [Bool.false_eq_true, if_false]
  rw [List.map_map]
  rfl

/-- C1 (amended): round trip holds for a coherent configuration.  After a
successful `put(path, F, info)` from a consistent client state (the
plaintext-to-id cache rows agree with the leaf-id computation, leaf ids do
not collide, and any pre-existing cache/remote entry at a leaf id carries
that piece), and with the passphrase options coherent (`passphrase` truthy
implies `obfuscatePassphrase` equals it — otherwise `put` succeeds but
`get` throws, see the counterexample), `get(path)` returns a ready entry
whose ordered chunk payloads concatenate to the concatenation of `F` and
whose `size`/`ctime`/`mtime` equal the fields of `info`. -/
theorem C1_round_trip_amended (h : Str → Nat) (opts : DFMOptions) (st0 st1 : DBState)
    (path : Str) (F : List Str) (info : FileInfo) (dtype : Str)
    (hty : dtype = lit "plain" ∨ dtype = lit "newnote")
    (hcoh : truthyS opts.passphrase = true → opts.obfuscatePassphrase = opts.passphrase)
    (HR : ∀ p ∈ DFM.putPieces opts path F, ∀ c, st0.cache.revGet p = some c →
      c = DFM.computeLeafId h opts p)
    (Hinj : ∀ p1 ∈ DFM.putPieces opts path F, ∀ p2 ∈ DFM.putPieces opts path F,
      DFM.computeLeafId h opts p1 = DFM.computeLeafId h opts p2 → p1 = p2)
    (Hcache : ∀ p ∈ DFM.putPieces opts path F, ∀ s,
      st0.cache.get (DFM.computeLeafId h opts p) = some s → s = p)
    (Hdb : ∀ p ∈ DFM.putPieces opts path F, ∀ d,
      st0.db.get (DFM.computeLeafId h opts p) = some d →
      d.dtype = some (lit "leaf") ∧ d.data = some (encPayload opts p))
    (Hput : DFM.put h opts st0 path F info dtype = .ok (true, st1)) :
    ∃ md ds cache2, DFM.get h opts st1 path false = .ok (.ready md ds, cache2)
      ∧ joinS ds = joinS F
      ∧ md.dtype = some dtype ∧ md.ctime = some info.ctime
      ∧ md.mtime = some info.mtime ∧ md.size = some info.size := by
  obtain ⟨⟨R, hmd⟩, hcachepres, hinv⟩ :=
    put_success_state h opts st0 st1 path F info dtype HR Hinj Hcache Hdb Hput
  obtain ⟨P, hPeq⟩ := encryptDocumentPath_eq opts
    { dtype := some dtype, path := some path,
      children := some ((DFM.putPieces opts path F).map (DFM.computeLeafId h opts)),
      ctime := some info.ctime, mtime := some info.mtime, size := some info.size }
  rw [hPeq] at hmd
  have hmd2 : st1.db.get (DFM.path2id h opts path) = some
      { rev := R, dtype := some dtype, data := none, path := P,
        children := some ((DFM.putPieces opts path F).map (DFM.computeLeafId h opts)),
        ctime := some info.ctime, mtime := some info.mtime, size := some info.size,
        deleted := none } := hmd
  have hP2 : truthyS opts.passphrase = true →
      P = some (encryptStr path (opts.passphrase.getD [])) := by
    intro hpass
    have hobf := hcoh hpass
    have htobf : truthyS opts.obfuscatePassphrase = true := by rw [hobf]; exact hpass
    have h2 : DFM.encryptDocumentPath opts
        { dtype := some dtype, path := some path,
          children := some ((DFM.putPieces opts path F).map (DFM.computeLeafId h opts)),
          ctime := some info.ctime, mtime := some info.mtime, size := some info.size }
        = { dtype := some dtype, path := some (encryptStr path (opts.passphrase.getD [])),
            children := some ((DFM.putPieces opts path F).map (DFM.computeLeafId h opts)),
            ctime := some info.ctime, mtime := some info.mtime, size := some info.size } := by
      unfold DFM.encryptDocumentPath
      rw [if_pos htobf, hobf]
      rfl
    rw [hPeq] at h2
    have h3 := congrArg StoredDoc.path h2
    simpa using h3
  have hPpath : truthyS opts.passphrase = true →
      ({ rev := R, dtype := some dtype, data := none, path := P,
         children := some ((DFM.putPieces opts path F).map (DFM.computeLeafId h opts)),
         ctime := some info.ctime, mtime := some info.mtime, size := some info.size,
         deleted := none } : StoredDoc).path
        = some (encryptStr path (opts.passphrase.getD [])) := fun hp => hP2 hp
  obtain ⟨Q, hdecok⟩ := decryptDocumentPath_ok_of opts
    { rev := R, dtype := some dtype, data := none, path := P,
      children := some ((DFM.putPieces opts path F).map (DFM.computeLeafId h opts)),
      ctime := some info.ctime, mtime := some info.mtime, size := some info.size,
      deleted := none } path hPpath
  have hdecok2 : DFM.decryptDocumentPath opts
      { rev := R, dtype := some dtype, data := none, path := P,
        children := some ((DFM.putPieces opts path F).map (DFM.computeLeafId h opts)),
        ctime := some info.ctime, mtime := some info.mtime, size := some info.size,
        deleted := none }
      = .ok
        { rev := R, dtype := some dtype, data := none, path := Q,
          children := some ((DFM.putPieces opts path F).map (DFM.computeLeafId h opts)),
          ctime := some info.ctime, mtime := some info.mtime, size := some info.size,
          deleted := none } := hdecok
  have hmeta : DFM.isMetaType
      { rev := R, dtype := some dtype, data := none, path := P,
        children := some ((DFM.putPieces opts path F).map (DFM.computeLeafId h opts)),
        ctime := some info.ctime, mtime := some info.mtime, size := some info.size,
        deleted := none } = true := by
    rcases hty with h1 | h1 <;> rw [h1] <;> rfl
  have hfind : ∀ p ∈ DFM.putPieces opts path F,
      (lookupA (DFM.makeChunks h opts st0.cache (DFM.putPieces opts path F)).1
        (DFM.computeLeafId h opts p)).getD [] = p := by
    intro p hp
    have hlkp : lookupA (DFM.makeChunks h opts st0.cache (DFM.putPieces opts path F)).1
        (DFM.computeLeafId h opts p) = some p := by
      unfold DFM.makeChunks
      exact makeChunksGo_lookup h opts st0.cache (DFM.putPieces opts path F) [] [] HR Hinj p hp
    rw [hlkp]
    rfl
  have hgood : ∀ cid ∈ (DFM.putPieces opts path F).map (DFM.computeLeafId h opts),
      (∀ s, st1.cache.get cid = some s →
        s = (lookupA (DFM.makeChunks h opts st0.cache (DFM.putPieces opts path F)).1 cid).getD [])
      ∧ (st1.cache.get cid = none → ∃ dd, st1.db.get cid = some dd
          ∧ dd.dtype = some (lit "leaf")
          ∧ dd.data = some (encPayload opts
              ((lookupA (DFM.makeChunks h opts st0.cache
                (DFM.putPieces opts path F)).1 cid).getD []))) := by
    intro cid hcid
    obtain ⟨p, hp, rfl⟩ := List.mem_map.mp hcid
    constructor
    · intro s hs
      rw [hfind p hp]
      rw [hcachepres] at hs
      exact Hcache p hp s hs
    · intro hnone
      rw [hcachepres] at hnone
      rcases hinv p hp with hhit | ⟨hne, d, hd, hdty, hdata⟩
      · rw [hnone] at hhit
        exact absurd hhit (by simp)
      · refine ⟨d, hd, hdty, ?_⟩
        rw [hfind p hp]
        exact hdata
  obtain ⟨cache2, hgbm⟩ := getByMeta_good opts st1.db st1.cache
    { rev := R, dtype := some dtype, data := none, path := Q,
      children := some ((DFM.putPieces opts path F).map (DFM.computeLeafId h opts)),
      ctime := some info.ctime, mtime := some info.mtime, size := some info.size,
      deleted := none }
    ((DFM.putPieces opts path F).map (DFM.computeLeafId h opts))
    (fun cid => (lookupA (DFM.makeChunks h opts st0.cache
      (DFM.putPieces opts path F)).1 cid).getD [])
    rfl hgood
  have hgot : DFM.get h opts st1 path false
      = DFM.getByMeta opts st1.db st1.cache
        { rev := R, dtype := some dtype, data := none, path := Q,
          children := some ((DFM.putPieces opts path F).map (DFM.computeLeafId h opts)),
          ctime := some info.ctime, mtime := some info.mtime, size := some info.size,
          deleted := none } := by
    unfold DFM.get DFM.getById
    simp only [hmd2]
    rw [if_neg (fun hcon => hcon hmeta)]
    simp only [hdecok2, Bool.false_eq_true, if_false]
  have hfinal : DFM.get h opts st1 path false = .ok (.ready
      { rev := R, dtype := some dtype, data := none, path := Q,
        children := some ((DFM.putPieces opts path F).map (DFM.computeLeafId h opts)),
        ctime := some info.ctime, mtime := some info.mtime, size := some info.size,
        deleted := none }
      (((DFM.putPieces opts path F).map (DFM.computeLeafId h opts)).map
        (fun cid => (lookupA (DFM.makeChunks h opts st0.cache
          (DFM.putPieces opts path F)).1 cid).getD [])), cache2) := by
    rw [hgot]
    exact hgbm
  refine ⟨_, _, cache2, hfinal, ?_, rfl, rfl, rfl, rfl⟩
  · have hds : ((DFM.putPieces opts path F).map (DFM.computeLeafId h opts)).map
        (fun cid => (lookupA (DFM.makeChunks h opts st0.cache
          (DFM.putPieces opts path F)).1 cid).getD [])
        = DFM.putPieces opts path F := by
      rw [List.map_map]
      have hcomp : ∀ p ∈ DFM.putPieces opts path F,
          ((fun cid => (lookupA (DFM.makeChunks h opts st0.cache
            (DFM.putPieces opts path F)).1 cid).getD []) ∘ DFM.computeLeafId h opts) p = p := by
        intro p hp
        simp only [Function.comp_apply]
        exact hfind p hp
      rw [List.map_congr_left hcomp]
      exact List.map_id _
    rw [hds]
    exact joinS_putPieces opts path F

/-- C1 (counterexample to the claim as frozen): with `passphrase` set but
`obfuscatePassphrase` unset, `put` of a fresh file succeeds (returns ok)
yet the subsequent `get` on the written state throws: `put` stores the
metadata `path` unencrypted (`encryptDocumentPath` uses
`obfuscatePassphrase` only) while `getById` feeds it to
`decryptDocumentPath` under `passphrase`, which fails, so the round trip
does not hold unconditionally after a successful `put`. -/
theorem C1_round_trip_counterexample :
    ((DFM.put (fun s => s.length + 7) { passphrase := some (lit "p") } DBState.empty
        (lit "a") [lit "xy"] ⟨1, 2, 3⟩ (lit "plain")).map (fun r => r.1) = .ok true)
    ∧ ((DFM.put (fun s => s.length + 7) { passphrase := some (lit "p") } DBState.empty
        (lit "a") [lit "xy"] ⟨1, 2, 3⟩ (lit "plain")).toOption.map (fun r =>
          (DFM.get (fun s => s.length + 7) { passphrase := some (lit "p") }
            r.2 (lit "a") false).toOption.isNone) = some true) := by
  decide

/-- C1 witness: the amended round trip at a concrete coherent input — no
passphrases, empty initial state, path `a`, data `["xy"]`, a concrete hash
function — with every hypothesis discharged on the concrete values. -/
theorem C1_round_trip_amended_witness :
    ∃ md ds cache2, DFM.get (fun s => s.length + 7) {}
        ((DFM.put (fun s => s.length + 7) {} DBState.empty (lit "a") [lit "xy"]
          ⟨1, 2, 3⟩ (lit "plain")).toOption.getD (true, DBState.empty)).2 (lit "a") false
        = .ok (.ready md ds, cache2)
      ∧ joinS ds = joinS [lit "xy"]
      ∧ md.dtype = some (lit "plain") ∧ md.ctime = some (1 : Int)
      ∧ md.mtime = some (2 : Int) ∧ md.size = some (3 : Int) :=
  C1_round_trip_amended (fun s => s.length + 7) {} DBState.empty
    ((DFM.put (fun s => s.length + 7) {} DBState.empty (lit "a") [lit "xy"]
      ⟨1, 2, 3⟩ (lit "plain")).toOption.getD (true, DBState.empty)).2
    (lit "a") [lit "xy"] ⟨1, 2, 3⟩ (lit "plain")
    (Or.inl rfl)
    (fun hp => absurd hp (by decide))
    (fun p hp c hc => Option.noConfusion hc)
    (by decide)
    (fun p hp s hs => Option.noConfusion hs)
    (fun p hp d hd => Option.noConfusion hd)
    rfl
